import Mathlib

/-!
Verification of the font-resolution pipeline and document normalizer of the
chiplab.tools SVG-to-PDF converter (src/font-manager.js, src/server.js).

Strings are modelled as `List Char`.  The JavaScript regular expressions used
by the source are shallowly embedded: each concrete regex of the source is
transcribed into a list of `Atom`s (literals, character classes with
greedy/lazy repetition, a single-level capture flag) and executed by a
backtracking matcher `matchAtoms` that mirrors the JS engine's behaviour
(leftmost match, greedy = longest first, lazy = shortest first).
JavaScript numbers are modelled as `Option ℚ` (`none` = NaN / non-finite);
`parseFloat` is modelled exactly for finite decimal numerals.
-/

set_option maxRecDepth 20000
set_option maxHeartbeats 2000000

namespace ChipLab

abbrev Str := List Char

/-- ASCII lower-casing of a character (model of JS `toLowerCase` for ASCII). -/
def lcAscii (c : Char) : Char :=
  if 'A' ≤ c ∧ c ≤ 'Z' then Char.ofNat (c.toNat + 32) else c

/-- Character comparison, optionally ASCII-case-insensitive (JS `i` flag). -/
def charMatch (ci : Bool) (a b : Char) : Bool :=
  if ci then lcAscii a == lcAscii b else a == b

/-- One element of an embedded regular expression. -/
inductive Atom where
  /-- a literal string; `ci` = case-insensitive -/
  | lit (cs : Str) (ci : Bool)
  /-- a character class repeated between `lo` and `hi` times (`none` = ∞);
      `lz` = lazy (shortest first), otherwise greedy; `cap` = capture group -/
  | cls (p : Char → Bool) (lo : Nat) (hi : Option Nat) (lz : Bool) (cap : Bool)

/-- Strip a literal (under case sensitivity `ci`) from the front of `s`. -/
def stripLit (ci : Bool) : Str → Str → Option Str
  | [], s => some s
  | _ :: _, [] => none
  | l :: ls, c :: cs => if charMatch ci l c then stripLit ci ls cs else none

/-- Length of the maximal run of characters satisfying `p` at the front. -/
def runLen (p : Char → Bool) : Str → Nat
  | [] => 0
  | c :: cs => if p c then runLen p cs + 1 else 0

/-- Candidate consumption counts for a class atom, in the order the JS
    backtracking engine tries them. -/
def counts (lo : Nat) (hi : Option Nat) (lz : Bool) (maxr : Nat) : List Nat :=
  let top := match hi with | none => maxr | some h => min h maxr
  if lo > top then []
  else
    let base := (List.range (top - lo + 1)).map (· + lo)
    if lz then base else base.reverse

/-- First `some` produced by `f` over a list, in order. -/
def firstSome (f : α → Option β) : List α → Option β
  | [] => none
  | a :: as =>
    match f a with
    | some b => some b
    | none => firstSome f as

/-- Backtracking matcher: given a pattern and a string, return the captures
    (in group order) and the remainder of the string after the match, for the
    first alternative found in JS backtracking order. -/
def matchAtoms : List Atom → Str → Option (List Str × Str)
  | [], s => some ([], s)
  | .lit cs ci :: rest, s =>
    match stripLit ci cs s with
    | none => none
    | some s' => matchAtoms rest s'
  | .cls p lo hi lz cap :: rest, s =>
    firstSome
      (fun n =>
        match matchAtoms rest (s.drop n) with
        | some (caps, r) => some ((if cap then [s.take n] else []) ++ caps, r)
        | none => none)
      (counts lo hi lz (runLen p s))

/-- Leftmost match search: returns `(start, captures, matchLength)`. -/
def searchFrom (pat : List Atom) : Str → Option (Nat × List Str × Nat)
  | [] =>
    match matchAtoms pat [] with
    | some (caps, _) => some (0, caps, 0)
    | none => none
  | c :: t =>
    match matchAtoms pat (c :: t) with
    | some (caps, r) => some (0, caps, (c :: t).length - r.length)
    | none => (searchFrom pat t).map fun pr => (pr.1 + 1, pr.2.1, pr.2.2)

/-- Global scan (the JS `while (exec)` idiom): all successive matches,
    resuming after the end of each match, with absolute positions. -/
def scanAllAux (pat : List Atom) : Str → Nat → Nat → List (Nat × List Str × Nat)
  | _, _, 0 => []
  | s, off, fuel + 1 =>
    match searchFrom pat s with
    | none => []
    | some (p, caps, len) =>
      if len = 0 then [(off + p, caps, len)]
      else (off + p, caps, len) :: scanAllAux pat (s.drop (p + len)) (off + p + len) fuel

def scanAll (pat : List Atom) (s : Str) : List (Nat × List Str × Nat) :=
  scanAllAux pat s 0 (s.length + 1)

/-- Just the first captures of every global match. -/
def scanCaptures (pat : List Atom) (s : Str) : List (List Str) :=
  (scanAll pat s).map fun m => m.2.1

/-- First match of a pattern: the captures only. -/
def firstMatch (pat : List Atom) (s : Str) : Option (List Str) :=
  (searchFrom pat s).map fun m => m.2.1

/-- `regex.test`: does the pattern match anywhere? -/
def testPat (pat : List Atom) (s : Str) : Bool :=
  (searchFrom pat s).isSome

/-! ### JavaScript string primitives -/

/-- JS whitespace characters (ASCII part; model of `\s` and of `trim`). -/
def isWs (c : Char) : Bool :=
  c == ' ' || c == '\t' || c == '\n' || c == '\r' || c == '\x0b' || c == '\x0c'

/-- `String.prototype.trim`. -/
def jsTrim (s : Str) : Str :=
  (s.dropWhile isWs).reverse.dropWhile isWs |>.reverse

/-- `String.prototype.toLowerCase` (ASCII model). -/
def jsToLower (s : Str) : Str := s.map lcAscii

/-- Does `needle` occur as a prefix of `s`? -/
def isPrefixAt : Str → Str → Bool
  | [], _ => true
  | _ :: _, [] => false
  | n :: ns, c :: cs => n == c && isPrefixAt ns cs

/-- `String.prototype.indexOf(needle)`: leftmost occurrence. -/
def indexOfStr (needle : Str) : Str → Option Nat
  | [] => if needle.isEmpty then some 0 else none
  | c :: t =>
    if isPrefixAt needle (c :: t) then some 0
    else (indexOfStr needle t).map (· + 1)

/-- `String.prototype.indexOf(needle, from)`. -/
def indexOfFrom (needle : Str) (s : Str) (from_ : Nat) : Option Nat :=
  (indexOfStr needle (s.drop from_)).map (· + from_)

/-- `String.prototype.lastIndexOf(needle)`: rightmost occurrence. -/
def lastIndexOfStr (needle s : Str) : Option Nat :=
  ((List.range (s.length + 1)).filter fun i => isPrefixAt needle (s.drop i)).getLast?

/-- `String.prototype.includes(needle)`. -/
def includesStr (needle s : Str) : Bool := (indexOfStr needle s).isSome

/-- `String.prototype.startsWith`. -/
def jsStartsWith (needle s : Str) : Bool := isPrefixAt needle s

/-- `String.prototype.endsWith`. -/
def jsEndsWith (needle s : Str) : Bool := isPrefixAt needle.reverse s.reverse

/-- `String.prototype.replace(needle, repl)` with a *string* first argument:
    replaces the first occurrence only (without `$`-substitution, which the
    source never relies on for these call sites). -/
def replaceFirstStr (s needle repl : Str) : Str :=
  match indexOfStr needle s with
  | none => s
  | some i => s.take i ++ repl ++ s.drop (i + needle.length)

/-- `String.prototype.substring(a, b)` (indices clamped; `a ≤ b` at all call
    sites of the source). -/
def jsSubstring (s : Str) (a b : Nat) : Str := (s.take b).drop a

/-- `String.prototype.substring(a)`. -/
def jsSubstringFrom (s : Str) (a : Nat) : Str := s.drop a

/-- `String.prototype.split(sep)` for a one-character separator. -/
def jsSplitChar (sep : Char) : Str → List Str
  | [] => [[]]
  | c :: t =>
    if c == sep then [] :: jsSplitChar sep t
    else
      match jsSplitChar sep t with
      | [] => [[c]]
      | h :: r => (c :: h) :: r

/-- Insertion-ordered de-duplication: the iteration order of a JS `Set`. -/
def dedupKeepFirst : List Str → List Str :=
  go []
where
  go (seen : List Str) : List Str → List Str
    | [] => []
    | x :: xs => if seen.contains x then go seen xs else x :: go (x :: seen) xs

/-! ### JS numbers: `Option ℚ` with `none` = NaN / non-finite -/

abbrev JsNum := Option ℚ

def jsMax : JsNum → JsNum → JsNum
  | some a, some b => some (max a b)
  | _, _ => none

def jsSub : JsNum → JsNum → JsNum
  | some a, some b => some (a - b)
  | _, _ => none

def jsMul : JsNum → JsNum → JsNum
  | some a, some b => some (a * b)
  | _, _ => none

/-- Division; a zero denominator yields a non-finite result in JS, which this
    model also maps to `none`. -/
def jsDiv : JsNum → JsNum → JsNum
  | some a, some b => if b = 0 then none else some (a / b)
  | _, _ => none

def isDigit (c : Char) : Bool := '0' ≤ c && c ≤ '9'

def digitVal (c : Char) : Nat := c.toNat - '0'.toNat

def digitsVal (ds : Str) : Nat := ds.foldl (fun a c => a * 10 + digitVal c) 0

/-- `parseFloat`: longest valid decimal prefix after leading whitespace;
    NaN (`none`) when no digits are found.  The value `±(i.f)` is built as the
    exact rational `±(i·10^k + f) / 10^k`.  Exponents and `Infinity` are not
    produced by the documents this model is applied to and are treated as
    unparseable. -/
def parseFloatQ (s : Str) : JsNum :=
  let s1 := s.dropWhile isWs
  let sign : Int := if s1.head? = some '-' then -1 else 1
  let s2 := if s1.head? = some '-' ∨ s1.head? = some '+' then s1.tail else s1
  let intDigits := s2.takeWhile isDigit
  let rest := s2.drop intDigits.length
  let fracDigits := if rest.head? = some '.' then rest.tail.takeWhile isDigit else []
  if intDigits.isEmpty ∧ fracDigits.isEmpty then none
  else
    some (mkRat
      (sign * ((digitsVal intDigits * 10 ^ fracDigits.length + digitsVal fracDigits : Nat) : Int))
      (10 ^ fracDigits.length))

def natDigitsRev (n : Nat) : Nat → Str
  | 0 => []
  | fuel + 1 =>
    if n = 0 then [] else Char.ofNat ('0'.toNat + n % 10) :: natDigitsRev (n / 10) fuel

def natToStr (n : Nat) : Str :=
  if n = 0 then ['0'] else (natDigitsRev n 64).reverse

/-- Decimal rendering of the fractional part `num/den`, with no trailing
    zeros — as in the JS default `Number → String` conversion for values
    whose denominator divides a power of ten. -/
def qFracDigits (num den : Nat) : Nat → Str
  | 0 => []
  | fuel + 1 =>
    if num = 0 then []
    else
      let d := num * 10 / den
      let r := num * 10 % den
      Char.ofNat ('0'.toNat + d) :: qFracDigits r den fuel

def qToStr (q : ℚ) : Str :=
  let sgn : Str := if q.num < 0 then ['-'] else []
  let n := q.num.natAbs
  let ip := n / q.den
  let fnum := n % q.den
  let frac := qFracDigits fnum q.den 64
  sgn ++ natToStr ip ++ (if frac.isEmpty then [] else '.' :: frac)

/-- JS `Number → String` on a possibly-NaN value. -/
def jsNumToStr : JsNum → Str
  | none => "NaN".data
  | some q => qToStr q

/-! ### Character classes used by the source's regexes -/

/-- the apostrophe character -/
def apos : Char := Char.ofNat 39

/-- the left and right curly brace characters -/
def lbr : Char := Char.ofNat 123

def rbr : Char := Char.ofNat 125

/-- `["']` -/
def isQuoteCls (c : Char) : Bool := c == apos || c == '"'

/-- `[^'",;]` -/
def famChar (c : Char) : Bool := !(c == apos || c == '"' || c == ',' || c == ';')

/-- `[^"']` -/
def notQuote (c : Char) : Bool := !(c == '"' || c == apos)

/-- `[^>]` -/
def notGt (c : Char) : Bool := !(c == '>')

/-- `[^"]` -/
def notDq (c : Char) : Bool := !(c == '"')

/-- `[^}]` -/
def notRBrace (c : Char) : Bool := !(c == rbr)

/-- `[^;]` -/
def notSemi (c : Char) : Bool := !(c == ';')

/-- `[\s\S]`, and `.` under the `s` flag -/
def anyChar (_ : Char) : Bool := true

/-! ## font-manager.js : extractFontsFromSVG (lines 18–71) -/

/-- `/font-family\s*:\s*['"]?([^'",;]+)['"]?/g` (lines 22 and 40) -/
def fontStylePat : List Atom := [
  .lit ("font-family".data) false,
  .cls isWs 0 none false false,
  .lit (":".data) false,
  .cls isWs 0 none false false,
  .cls isQuoteCls 0 (some 1) false false,
  .cls famChar 1 none false true,
  .cls isQuoteCls 0 (some 1) false false]

/-- `/font-family\s*=\s*["']([^"']+)["']/g` (line 30) -/
def fontAttrPat : List Atom := [
  .lit ("font-family".data) false,
  .cls isWs 0 none false false,
  .lit ("=".data) false,
  .cls isWs 0 none false false,
  .cls isQuoteCls 1 (some 1) false false,
  .cls notQuote 1 none false true,
  .cls isQuoteCls 1 (some 1) false false]

/-- `/<style[^>]*>([\s\S]*?)<\/style>/g` (line 36) -/
def styleBlockPat : List Atom := [
  .lit ("<style".data) false,
  .cls notGt 0 none false false,
  .lit (">".data) false,
  .cls anyChar 0 none true true,
  .lit ("</style>".data) false]

/-- `/<tspan[^>]*font-family\s*=\s*["']([^"']+)["'][^>]*>/g` (line 49) -/
def tspanPat : List Atom := [
  .lit ("<tspan".data) false,
  .cls notGt 0 none false false,
  .lit ("font-family".data) false,
  .cls isWs 0 none false false,
  .lit ("=".data) false,
  .cls isWs 0 none false false,
  .cls isQuoteCls 1 (some 1) false false,
  .cls notQuote 1 none false true,
  .cls isQuoteCls 1 (some 1) false false,
  .cls notGt 0 none false false,
  .lit (">".data) false]

/-- `/<text[^>]*font-family\s*=\s*["']([^"']+)["'][^>]*>/g` (line 55) -/
def textAttrPat : List Atom := [
  .lit ("<text".data) false,
  .cls notGt 0 none false false,
  .lit ("font-family".data) false,
  .cls isWs 0 none false false,
  .lit ("=".data) false,
  .cls isWs 0 none false false,
  .cls isQuoteCls 1 (some 1) false false,
  .cls notQuote 1 none false true,
  .cls isQuoteCls 1 (some 1) false false,
  .cls notGt 0 none false false,
  .lit (">".data) false]

/-- `/@font-face\s*{[^}]*?font-family\s*:\s*['"]?([^'",;]+)['"]?[^}]*?}/g` (line 61) -/
def fontFacePat : List Atom := [
  .lit ("@font-face".data) false,
  .cls isWs 0 none false false,
  .lit [lbr] false,
  .cls notRBrace 0 none true false,
  .lit ("font-family".data) false,
  .cls isWs 0 none false false,
  .lit (":".data) false,
  .cls isWs 0 none false false,
  .cls isQuoteCls 0 (some 1) false false,
  .cls famChar 1 none false true,
  .cls isQuoteCls 0 (some 1) false false,
  .cls notRBrace 0 none true false,
  .lit [rbr] false]

/-- The first capture group of every global match of `pat`. -/
def capturesOf (pat : List Atom) (s : Str) : List Str :=
  (scanCaptures pat s).filterMap fun caps => caps.head?

/-- The strings added to the `fontFamilies` set, in insertion order with
    duplicates (lines 25–64); each capture is trimmed before insertion. -/
def extractRaw (svgContent : Str) : List Str :=
  let pass1 := (capturesOf fontStylePat svgContent).map jsTrim
  let pass2 := (capturesOf fontAttrPat svgContent).map jsTrim
  let pass3 := (capturesOf styleBlockPat svgContent).flatMap fun css =>
    (capturesOf fontStylePat css).map jsTrim
  let pass4 := (capturesOf tspanPat svgContent).map jsTrim
  let pass5 := (capturesOf textAttrPat svgContent).map jsTrim
  let pass6 := (capturesOf fontFacePat svgContent).map jsTrim
  pass1 ++ pass2 ++ pass3 ++ pass4 ++ pass5 ++ pass6

/-- `font.split(',')[0].trim()` (line 69). -/
def primaryName (font : Str) : Str := jsTrim (jsSplitChar ',' font).headI

/-- Lines 18–71: collect the set of raw matches, then strip fallback chains. -/
def extractFontsFromSVG (svgContent : Str) : List Str :=
  (dedupKeepFirst (extractRaw svgContent)).map primaryName

/-! ## font-manager.js : fontExistsLocally (lines 79–98) -/

def isLowerAlnum (c : Char) : Bool := ('a' ≤ c && c ≤ 'z') || isDigit c

/-- `.toLowerCase().replace(/[^a-z0-9]/g, '')` (lines 84, 88–90). -/
def normalizeFontKey (s : Str) : Str := (jsToLower s).filter isLowerAlnum

/-- `path.extname` for a bare file name: the final dot-suffix; empty when the
    name has no dot or only a leading dot. -/
def extnameOf (file : Str) : Str :=
  match lastIndexOfStr ['.'] file with
  | none => []
  | some 0 => []
  | some i => file.drop i

/-- `path.basename(file, ext)` for a bare file name. -/
def basenameExt (file ext : Str) : Str :=
  if ext ≠ [] ∧ file ≠ ext ∧ jsEndsWith ext file = true then
    file.take (file.length - ext.length)
  else file

/-- Lines 79–98.  The directory listing is `none` when `fs.readdirSync`
    throws; the catch block returns `false`. -/
def fontExistsLocally (fontName : Str) (dirListing : Option (List Str)) : Bool :=
  match dirListing with
  | none => false
  | some files =>
    let normalizedFontName := normalizeFontKey fontName
    files.any fun file =>
      let fileName := normalizeFontKey (basenameExt file (extnameOf file))
      includesStr normalizedFontName fileName

/-! ## font-manager.js : updateTypeXmlFile (lines 261–402) -/

/-- One row of the mapping file, with the attributes of line 374. -/
structure RowData where
  name : Str
  fullname : Str
  family : Str
  style : Str
  stretch : Str
  weight : Str
  glyphs : Str
deriving DecidableEq, Repr

/-- `(name, family, style, weight)` — the tuple the spec's invariant is about. -/
def RowData.tuple (r : RowData) : Str × Str × Str × Str :=
  (r.name, r.family, r.style, r.weight)

/-- `path.resolve(fontsDir, fontFile)` for an absolute, already-normalized
    directory and a bare file name: `dir ++ "/" ++ file`.  The subsequent
    `.replace(/\\/g, '/')` of line 373 is the identity here since the names
    this model is applied to contain no backslashes. -/
def resolvePath (dir file : Str) : Str := dir ++ '/' :: file

/-- Lines 318–379: derive one mapping row from a file name. -/
def mkRowData (fontName fontsDir fontFile : Str) : RowData :=
  let filenameLower := jsToLower fontFile
  let isItalic := includesStr ("-italic".data) filenameLower ||
                  includesStr ("-bolditalic".data) filenameLower
  let isBold := includesStr ("-bold".data) filenameLower ||
                includesStr ("-bolditalic".data) filenameLower
  let isSemiBold := includesStr ("-semibold".data) filenameLower
  let isLight := includesStr ("-light".data) filenameLower
  let isMedium := includesStr ("-medium".data) filenameLower
  let isRegular := includesStr ("-regular".data) filenameLower
  let isExtraBold := includesStr ("-extrabold".data) filenameLower
  -- sequential reassignments of lines 330–335: the last applicable wins
  let weight :=
    if isExtraBold then "800".data
    else if isLight then "300".data
    else if isMedium then "500".data
    else if isSemiBold then "600".data
    else if isBold then "700".data
    else "400".data
  let style := if isItalic then "Italic".data else "Normal".data
  let fullname := fontName ++
    (if isBold && isItalic then " Bold Italic".data
     else if isBold then " Bold".data
     else if isSemiBold && isItalic then " SemiBold Italic".data
     else if isSemiBold then " SemiBold".data
     else if isMedium && isItalic then " Medium Italic".data
     else if isMedium then " Medium".data
     else if isLight && isItalic then " Light Italic".data
     else if isLight then " Light".data
     else if isItalic then " Italic".data
     else if isRegular then " Regular".data
     else if isExtraBold && isItalic then " ExtraBold Italic".data
     else if isExtraBold then " ExtraBold".data
     else " Regular".data)
  let name := fontName ++
    (if isBold && isItalic then " Bold Italic".data
     else if isBold then " Bold".data
     else if isSemiBold && isItalic then " SemiBold Italic".data
     else if isSemiBold then " SemiBold".data
     else if isMedium && isItalic then " Medium Italic".data
     else if isMedium then " Medium".data
     else if isLight && isItalic then " Light Italic".data
     else if isLight then " Light".data
     else if isItalic then " Italic".data
     else if !isRegular && !includesStr ("-".data) fontFile then " Regular".data
     else [])
  { name, fullname, family := fontName, style, stretch := "Normal".data,
    weight, glyphs := resolvePath fontsDir fontFile }

/-- The self-closing `<type ... />` tag of one row (line 374). -/
def rowCore (r : RowData) : Str :=
  "<type name=\"".data ++ r.name ++ "\" fullname=\"".data ++ r.fullname ++
  "\" family=\"".data ++ r.family ++ "\" style=\"".data ++ r.style ++
  "\" stretch=\"".data ++ r.stretch ++ "\" weight=\"".data ++ r.weight ++
  "\" glyphs=\"".data ++ r.glyphs ++ "\" />".data

/-- Lines 372–374: render a row as the line appended to the mapping file
    (two leading spaces, trailing newline). -/
def rowString (r : RowData) : Str := "  ".data ++ rowCore r ++ "\n".data

/-- Lines 382–384: the additional name-only default row. -/
def defaultRowData (fontName fontsDir : Str) (fontFiles : List Str) : RowData :=
  let defaultFontFile :=
    (fontFiles.find? fun f => includesStr ("-regular".data) (jsToLower f)).getD fontFiles.headI
  { name := fontName, fullname := fontName ++ " Regular".data, family := fontName,
    style := "Normal".data, stretch := "Normal".data, weight := "400".data,
    glyphs := resolvePath fontsDir defaultFontFile }

/-- All rows appended during one write cycle (per-file rows then the default). -/
def newEntriesList (fontName fontsDir : Str) (fontFiles : List Str) : List RowData :=
  fontFiles.map (mkRowData fontName fontsDir) ++ [defaultRowData fontName fontsDir fontFiles]

def newEntriesStr (fontName fontsDir : Str) (fontFiles : List Str) : Str :=
  ((newEntriesList fontName fontsDir fontFiles).map rowString).flatten

/-- Line 297: `new RegExp(`<type[^>]*family\s*=\s*["']fontName["'][^>]*>`, 'gi')`. -/
def typeEntryPat (fontName : Str) : List Atom := [
  .lit ("<type".data) true,
  .cls notGt 0 none false false,
  .lit ("family".data) true,
  .cls isWs 0 none false false,
  .lit ("=".data) true,
  .cls isWs 0 none false false,
  .cls isQuoteCls 1 (some 1) false false,
  .lit fontName true,
  .cls isQuoteCls 1 (some 1) false false,
  .cls notGt 0 none false false,
  .lit (">".data) true]

/-- Lines 297–308: the entry substrings collected for removal
    (`endPos = indexOf('/>', startPos) + 2`, pushed when `endPos > startPos`). -/
def entriesToRemove (fontName xmlContent : Str) : List Str :=
  (scanAll (typeEntryPat fontName) xmlContent).filterMap fun m =>
    let startPos := m.1
    let endPos : Int :=
      (match indexOfFrom ("/>".data) xmlContent startPos with
       | none => -1
       | some j => (j : Int)) + 2
    if (startPos : Int) < endPos then some (jsSubstring xmlContent startPos endPos.toNat)
    else none

/-- Line 268: the fresh mapping file template. -/
def emptyTypeXml : Str := "<?xml version=\"1.0\"?>\n<typemap>\n</typemap>".data

/-- Lines 261–402.  `dirFiles` is the `fs.readdirSync(fontsDir)` listing;
    `existing` is the mapping file's current content (`none` = absent).
    Returns the file's content afterwards (the input when nothing is written). -/
def updateTypeXmlFile (fontName fontsDir : Str) (dirFiles : List Str)
    (existing : Option Str) : Option Str :=
  let xmlContent := existing.getD emptyTypeXml
  let normalizedName := jsToLower (fontName.filter fun c => !isWs c)
  let fontFiles := dirFiles.filter fun file =>
    jsStartsWith normalizedName (jsToLower file) && jsEndsWith (".ttf".data) (jsToLower file)
  if fontFiles.isEmpty then existing
  else
    match lastIndexOfStr ("</typemap>".data) xmlContent with
    | none => existing
    | some closingTagPos =>
      let entries := entriesToRemove fontName xmlContent
      -- lines 311–313: remove each collected entry (first occurrence)
      let xmlContent' := entries.foldl (fun c e => replaceFirstStr c e []) xmlContent
      let newEntries := newEntriesStr fontName fontsDir fontFiles
      -- lines 389–394: note `closingTagPos` is the index computed *before* removal
      let u := jsTrim (jsSubstring xmlContent' 0 closingTagPos)
      let u := if !jsEndsWith ("\n".data) u then u ++ "\n".data else u
      some (u ++ newEntries ++ jsSubstringFrom xmlContent' closingTagPos)

/-! ## font-manager.js : downloadGoogleFont (lines 106–253) and
     ensureFontsAvailable (lines 411–489).

The network is modelled as data: `NetEnv` records the configuration and what
the remote endpoints would answer.  Every error raised inside
`downloadGoogleFont` is caught by its own `try/catch` (line 249), which logs
the message and resolves to `false` — the function never rejects. -/

/-- Lines 111–112. -/
def systemFonts : List Str := [
  "Arial".data, "Helvetica".data, "Times".data, "Times New Roman".data,
  "Courier".data, "Courier New".data, "Verdana".data, "Georgia".data,
  "Palatino".data, "Garamond".data, "Bookman".data, "Tahoma".data,
  "Trebuchet MS".data]

structure CatalogItem where
  family : Str
  /-- `files.regular`, absent when the item exposes no regular variant URL -/
  filesRegular : Option Str
deriving DecidableEq

/-- Configuration and remote behaviour for one resolution run. -/
structure NetEnv where
  /-- `process.env.GOOGLE_FONTS_API_KEY` -/
  apiKey : Option Str
  /-- the catalog query's `items`; `none` = HTTP failure or invalid response -/
  catalog : Option (List CatalogItem)
  /-- result of the HEAD probe per URL -/
  headOk : Str → Bool
  /-- the binary download succeeds -/
  downloadOk : Bool

/-- Local filesystem state threaded through resolution. -/
structure FsState where
  dirFiles : List Str
  typeXml : Option Str
deriving DecidableEq

structure DownloadOutcome where
  /-- the boolean the promise resolves to -/
  result : Bool
  /-- network requests issued (catalog GET, HEAD probe, binary GET) -/
  networkCalls : Nat
  /-- font file written into the directory, if any -/
  fileWritten : Option Str
  /-- whether `updateTypeXmlFile` was invoked -/
  mappingTouched : Bool
  /-- `error.message`s printed by the catch blocks -/
  logs : List Str
deriving DecidableEq

/-- Line 121. -/
def apiKeyErrMsg : Str :=
  "Google Fonts API key not configured - set GOOGLE_FONTS_API_KEY environment variable".data

/-- Line 169. -/
def invalidRespMsg : Str := "Invalid response from Google Fonts API".data

/-- Line 178. -/
def notFoundMsg (fontName : Str) : Str :=
  "Font \"".data ++ fontName ++
    "\" not found in Google Fonts catalog - check spelling or try a different font".data

/-- Line 185. -/
def noFilesMsg (fontName : Str) : Str :=
  "No files information available for ".data ++ fontName

/-- Line 200. -/
def ttfUnavailableMsg (fontName : Str) : Str :=
  "TTF format not available for \"".data ++ fontName ++
    "\" - Google Fonts may only provide WOFF/WOFF2 for this font".data

/-- Line 250: the message printed by the outer catch. -/
def outerErrLog (fontName msg : Str) : Str :=
  "Error downloading Google Font ".data ++ fontName ++ ": ".data ++ msg

/-- Line 191: `fontUrl.replace(/\.woff2$|\.woff$/, '.ttf')`. -/
def toTtfUrl (fontUrl : Str) : Str :=
  if jsEndsWith (".woff2".data) fontUrl then
    fontUrl.take (fontUrl.length - 6) ++ ".ttf".data
  else if jsEndsWith (".woff".data) fontUrl then
    fontUrl.take (fontUrl.length - 5) ++ ".ttf".data
  else fontUrl

/-- Lines 211–212: `fontName.replace(/\s+/g, '') ++ "-Regular.ttf"`. -/
def ttfFileName (fontName : Str) : Str :=
  (fontName.filter fun c => !isWs c) ++ "-Regular.ttf".data

/-- Lines 106–253. -/
def downloadGoogleFont (env : NetEnv) (fontName fontsDir : Str) (fs0 : FsState) :
    DownloadOutcome × FsState :=
  if systemFonts.contains fontName then
    -- lines 113–116: skip, resolving to false with no network traffic
    ({ result := false, networkCalls := 0, fileWritten := none, mappingTouched := false,
       logs := [] }, fs0)
  else
    match env.apiKey with
    | none =>
      -- lines 119–122: throw, caught at line 249
      ({ result := false, networkCalls := 0, fileWritten := none, mappingTouched := false,
         logs := [outerErrLog fontName apiKeyErrMsg] }, fs0)
    | some _ =>
      match env.catalog with
      | none =>
        -- lines 164–170: the GET happened; response invalid or HTTP error
        ({ result := false, networkCalls := 1, fileWritten := none, mappingTouched := false,
           logs := [outerErrLog fontName invalidRespMsg] }, fs0)
      | some items =>
        match items.find? fun item => jsToLower item.family == jsToLower fontName with
        | none =>
          ({ result := false, networkCalls := 1, fileWritten := none, mappingTouched := false,
             logs := [outerErrLog fontName (notFoundMsg fontName)] }, fs0)
        | some fontInfo =>
          match fontInfo.filesRegular with
          | none =>
            ({ result := false, networkCalls := 1, fileWritten := none, mappingTouched := false,
               logs := [outerErrLog fontName (noFilesMsg fontName)] }, fs0)
          | some fontUrl =>
            let ttfUrl := toTtfUrl fontUrl
            if !env.headOk ttfUrl then
              ({ result := false, networkCalls := 2, fileWritten := none, mappingTouched := false,
                 logs := [outerErrLog fontName (ttfUnavailableMsg fontName)] }, fs0)
            else if !env.downloadOk then
              -- lines 233–236 and 245–248: partial file deleted, inner catch returns false
              ({ result := false, networkCalls := 3, fileWritten := none, mappingTouched := false,
                 logs := ["Error downloading TTF font".data] }, fs0)
            else
              let fileName := ttfFileName fontName
              let dirFiles' :=
                if fs0.dirFiles.contains fileName then fs0.dirFiles
                else fs0.dirFiles ++ [fileName]
              let typeXml' := updateTypeXmlFile fontName fontsDir dirFiles' fs0.typeXml
              ({ result := true, networkCalls := 3, fileWritten := some fileName,
                 mappingTouched := true, logs := [] },
               { dirFiles := dirFiles', typeXml := typeXml' })

/-- The aggregate report (lines 412–418). -/
structure FontResults where
  fontsDetected : List Str
  fontsFoundLocally : List Str
  fontsDownloaded : List Str
  fontsFailed : List Str
  errors : List Str
deriving DecidableEq

structure EnsureState where
  results : FontResults
  fs : FsState
  networkCalls : Nat
deriving DecidableEq

/-- Lines 440–469: one iteration of the per-font loop.  `downloadGoogleFont`
    never rejects, so the `catch` of lines 461–467 is unreachable and
    `results.errors` is never extended here. -/
def ensureStep (env : NetEnv) (fontsDir : Str) (st : EnsureState) (fontName : Str) :
    EnsureState :=
  if fontExistsLocally fontName (some st.fs.dirFiles) then
    { st with results := { st.results with
        fontsFoundLocally := st.results.fontsFoundLocally ++ [fontName] } }
  else if (downloadGoogleFont env fontName fontsDir st.fs).1.result then
    { results := { st.results with
        fontsDownloaded := st.results.fontsDownloaded ++ [fontName] },
      fs := (downloadGoogleFont env fontName fontsDir st.fs).2,
      networkCalls :=
        st.networkCalls + (downloadGoogleFont env fontName fontsDir st.fs).1.networkCalls }
  else
    { results := { st.results with
        fontsFailed := st.results.fontsFailed ++ [fontName] },
      fs := (downloadGoogleFont env fontName fontsDir st.fs).2,
      networkCalls :=
        st.networkCalls + (downloadGoogleFont env fontName fontsDir st.fs).1.networkCalls }

/-- Lines 411–489, with the SVG already read into `svgContent`. -/
def ensureFontsAvailable (env : NetEnv) (svgContent fontsDir : Str) (fs0 : FsState) :
    EnsureState :=
  let fontFamilies := extractFontsFromSVG svgContent
  let init : EnsureState :=
    { results := { fontsDetected := fontFamilies, fontsFoundLocally := [],
                   fontsDownloaded := [], fontsFailed := [], errors := [] },
      fs := fs0, networkCalls := 0 }
  if fontFamilies.isEmpty then init
  else fontFamilies.foldl (ensureStep env fontsDir) init

/-! ## server.js : preprocessSvg — frame inference (lines 275–319)

Only the viewBox-inference portion of `preprocessSvg` is embedded here (the
remainder of the function, lines 322–350, adds text-rendering attributes and
is not the subject of any claim). -/

/-- `/<svg[^>]*viewBox\s*=\s*["'][^"']*["']/i` (line 281) -/
def svgViewBoxPat : List Atom := [
  .lit ("<svg".data) true,
  .cls notGt 0 none false false,
  .lit ("viewBox".data) true,
  .cls isWs 0 none false false,
  .lit ("=".data) true,
  .cls isWs 0 none false false,
  .cls isQuoteCls 1 (some 1) false false,
  .cls notQuote 0 none false false,
  .cls isQuoteCls 1 (some 1) false false]

/-- `/<svg[^>]*>/i` (lines 282, 495, 578) -/
def svgTagPat : List Atom := [
  .lit ("<svg".data) true,
  .cls notGt 0 none false false,
  .lit (">".data) true]

/-- `/<svg[^>]*width\s*=\s*["']([^"']*)["']/i` (line 288) -/
def svgWidthPat : List Atom := [
  .lit ("<svg".data) true,
  .cls notGt 0 none false false,
  .lit ("width".data) true,
  .cls isWs 0 none false false,
  .lit ("=".data) true,
  .cls isWs 0 none false false,
  .cls isQuoteCls 1 (some 1) false false,
  .cls notQuote 0 none false true,
  .cls isQuoteCls 1 (some 1) false false]

/-- `/<svg[^>]*height\s*=\s*["']([^"']*)["']/i` (line 289) -/
def svgHeightPat : List Atom := [
  .lit ("<svg".data) true,
  .cls notGt 0 none false false,
  .lit ("height".data) true,
  .cls isWs 0 none false false,
  .lit ("=".data) true,
  .cls isWs 0 none false false,
  .cls isQuoteCls 1 (some 1) false false,
  .cls notQuote 0 none false true,
  .cls isQuoteCls 1 (some 1) false false]

/-- Line 303: `svgTagMatch[0].replace(/>$/, ` viewBox="${viewBox}">`)`. -/
def injectViewBox (tag vb : Str) : Str :=
  if jsEndsWith (">".data) tag then
    tag.dropLast ++ " viewBox=\"".data ++ vb ++ "\">".data
  else tag

/-- Lines 275–319: synthesize `viewBox="0 0 w h"` when absent and both
    dimensions parse as positive numbers. -/
def preprocessSvgFrame (svgContent : Str) : Str :=
  let hasViewBox := testPat svgViewBoxPat svgContent
  match searchFrom svgTagPat svgContent with
  | none => svgContent
  | some (pos, _, len) =>
    if hasViewBox then svgContent
    else
      match firstMatch svgWidthPat svgContent, firstMatch svgHeightPat svgContent with
      | some wcaps, some hcaps =>
        let widthValue := jsTrim wcaps.headI
        let heightValue := jsTrim hcaps.headI
        match parseFloatQ widthValue, parseFloatQ heightValue with
        | some w, some h =>
          if 0 < w ∧ 0 < h then
            let tag := jsSubstring svgContent pos (pos + len)
            let viewBox := "0 0 ".data ++ qToStr w ++ " ".data ++ qToStr h
            replaceFirstStr svgContent tag (injectViewBox tag viewBox)
          else svgContent
        | _, _ => svgContent
      | _, _ => svgContent

/-! ## server.js : preprocessSvgForBetterFonts (lines 361–547) -/

/-- `/<text[^>]*>.*?<\/text>/gis` (line 368) -/
def textElemPat : List Atom := [
  .lit ("<text".data) true,
  .cls notGt 0 none false false,
  .lit (">".data) true,
  .cls anyChar 0 none true false,
  .lit ("</text>".data) true]

/-- The matched substrings of every global match of `pat`. -/
def matchTexts (pat : List Atom) (s : Str) : List Str :=
  (scanAll pat s).map fun m => jsSubstring s m.1 (m.1 + m.2.2)

/-- `/<type\s+name="([^"]+)"\s+[^>]*?family="([^"]+)"[^>]*?glyphs="([^"]+)"/gi`
    (line 389) -/
def fontEntryPat : List Atom := [
  .lit ("<type".data) true,
  .cls isWs 1 none false false,
  .lit ("name=\"".data) true,
  .cls notDq 1 none false true,
  .lit ("\"".data) true,
  .cls isWs 1 none false false,
  .cls notGt 0 none true false,
  .lit ("family=\"".data) true,
  .cls notDq 1 none false true,
  .lit ("\"".data) true,
  .cls notGt 0 none true false,
  .lit ("glyphs=\"".data) true,
  .cls notDq 1 none false true,
  .lit ("\"".data) true]

structure FontMapping where
  name : Str
  family : Str
  path : Str

/-- Lines 384–399. -/
def parseFontMappings (typeXml : Option Str) : List FontMapping :=
  match typeXml with
  | none => []
  | some content =>
    (scanCaptures fontEntryPat content).filterMap fun caps =>
      match caps with
      | [n, f, p] => some ⟨n, f, p⟩
      | _ => none

structure AvailFont where
  fileName : Str
  fontName : Str

/-- Lines 406–410: strip the `.ttf` suffix, delete everything from the first
    `-` on (the regex `-.*$`), insert a space before each capital (`([A-Z])`
    with replacement ` $1`), and trim. -/
def availFontName (file : Str) : Str :=
  let base := basenameExt file (".ttf".data)
  let noSuffix := base.takeWhile fun c => c != '-'
  jsTrim (noSuffix.flatMap fun c => if 'A' ≤ c ∧ c ≤ 'Z' then [' ', c] else [c])

/-- Lines 403–415. -/
def availableFontsOf (dirFiles : List Str) : List AvailFont :=
  (dirFiles.filter fun f => jsEndsWith (".ttf".data) (jsToLower f)).map fun f =>
    ⟨f, availFontName f⟩

/-- `/font-family\s*=\s*["']([^"']*)["']/i` (lines 424, 507) — `*`, not `+` -/
def ffAttrStarPat : List Atom := [
  .lit ("font-family".data) true,
  .cls isWs 0 none false false,
  .lit ("=".data) true,
  .cls isWs 0 none false false,
  .cls isQuoteCls 1 (some 1) false false,
  .cls notQuote 0 none false true,
  .cls isQuoteCls 1 (some 1) false false]

/-- `/font-family\s*:\s*([^;]*)/i` (lines 425, 508) -/
def ffStyleStarPat : List Atom := [
  .lit ("font-family".data) true,
  .cls isWs 0 none false false,
  .lit (":".data) true,
  .cls isWs 0 none false false,
  .cls notSemi 0 none false true]

/-- `text.match(attrRe) || text.match(styleRe)`, first capture. -/
def textFontMatch (text : Str) : Option Str :=
  match firstMatch ffAttrStarPat text with
  | some caps => caps.head?
  | none => (firstMatch ffStyleStarPat text).bind fun caps => caps.head?

/-- Line 428: `fontMatch[1].trim().split(',')[0].replace(/['"]*/g, '')`. -/
def collectedFamily (v : Str) : Str :=
  ((jsSplitChar ',' (jsTrim v)).headI).filter fun c => !(c == apos || c == '"')

/-- Lines 453–458 and 471–476. -/
def ffBlockSrc (ff url : Str) : Str :=
  "@font-face \x7b\n  font-family: \x27".data ++ ff ++
  "\x27;\n  font-style: normal;\n  font-weight: normal;\n  src: url(\"".data ++ url ++
  "\") format(\"truetype\");\n\x7d\n".data

/-- Lines 480–484. -/
def ffBlockNoSrc (ff : Str) : Str :=
  "@font-face \x7b\n  font-family: \x27".data ++ ff ++
  "\x27;\n  font-style: normal;\n  font-weight: normal;\n\x7d\n".data

/-- Lines 438–487: the declaration emitted for one family. -/
def ffBlock (fontMappings : List FontMapping) (availableFonts : List AvailFont)
    (fontPath ff : Str) : Str :=
  let exactMapping := fontMappings.find? fun m => jsToLower m.family == jsToLower ff
  let similarMapping := fontMappings.find? fun m =>
    includesStr (jsToLower ff) (jsToLower m.family) ||
    includesStr (jsToLower m.family) (jsToLower ff)
  match exactMapping.orElse fun _ => similarMapping with
  | some mapping => ffBlockSrc ff mapping.path
  | none =>
    match availableFonts.find? fun font =>
        jsToLower font.fontName == jsToLower ff ||
        includesStr (jsToLower font.fontName) (jsToLower ff) ||
        includesStr (jsToLower ff) (jsToLower font.fontName) with
    | some matchingFont => ffBlockSrc ff (fontPath ++ '/' :: matchingFont.fileName)
    | none => ffBlockNoSrc ff

/-- `/<style[^>]*>[\s\S]*?@font-face[\s\S]*?<\/style>/gi` (line 492) -/
def styleFaceRemovePat : List Atom := [
  .lit ("<style".data) true,
  .cls notGt 0 none false false,
  .lit (">".data) true,
  .cls anyChar 0 none true false,
  .lit ("@font-face".data) true,
  .cls anyChar 0 none true false,
  .lit ("</style>".data) true]

/-- `s.replace(re-with-g, '')`: delete every match. -/
def removeAllPat (pat : List Atom) (s : Str) : Str :=
  go 0 (scanAll pat s)
where
  go (cur : Nat) : List (Nat × List Str × Nat) → Str
    | [] => s.drop cur
    | (p, _, l) :: rest => jsSubstring s cur p ++ go (p + l) rest

/-- `/style="([^"]*)"/i` (line 526) -/
def styleAttrPat : List Atom := [
  .lit ("style=\"".data) true,
  .cls notDq 0 none false true,
  .lit ("\"".data) true]

/-- Line 522. -/
def fontStyleStr (fontFamily : Str) : Str :=
  "font-family: \x27".data ++ fontFamily ++
  "\x27, sans-serif; text-rendering: geometricPrecision;".data

/-- Lines 505–537: enhancement of one text element. -/
def enhanceTextElement (originalText : Str) : Str :=
  match textFontMatch originalText with
  | none => originalText
  | some v =>
    let fontFamily := (jsSplitChar ',' (jsTrim v)).headI
    let newText :=
      if !includesStr ("font-weight".data) originalText then
        replaceFirstStr originalText ("<text".data) ("<text font-weight=\"bold\"".data)
      else originalText
    let fontStyle := fontStyleStr fontFamily
    if includesStr ("style=\"".data) newText then
      match searchFrom styleAttrPat newText with
      | some (pos, caps, len) =>
        newText.take pos ++ "style=\"".data ++ caps.headI ++ "; ".data ++ fontStyle ++
          "\"".data ++ newText.drop (pos + len)
      | none => newText
    else
      replaceFirstStr newText ("<text".data) ("<text style=\"".data ++ fontStyle ++ "\"".data)

/-- Lines 361–547.  `typeXml` is the mapping file's content (if present),
    `dirFiles` the font directory listing, `fontPath` the directory's path. -/
def preprocessSvgForBetterFonts (typeXml : Option Str) (dirFiles : List Str)
    (fontPath svgContent : Str) : Str :=
  let textElements := matchTexts textElemPat svgContent
  if textElements.isEmpty then svgContent
  else
    let fontMappings := parseFontMappings typeXml
    let availableFonts := availableFontsOf dirFiles
    let fontFamilies := dedupKeepFirst (textElements.filterMap fun text =>
      (textFontMatch text).map collectedFamily)
    let step1 : Str × Bool :=
      if !fontFamilies.isEmpty then
        let styleBlock := "<style type=\"text/css\">\n".data ++
          (fontFamilies.map (ffBlock fontMappings availableFonts fontPath)).flatten ++
          "</style>".data
        let removed := removeAllPat styleFaceRemovePat svgContent
        match searchFrom svgTagPat removed with
        | some (pos, _, len) =>
          (removed.take (pos + len) ++ '\n' :: (styleBlock ++ removed.drop (pos + len)), true)
        | none => (removed, false)
      else (svgContent, false)
    let step2 := textElements.foldl
      (fun (acc : Str × Bool) t =>
        let newText := enhanceTextElement t
        if newText ≠ t then (replaceFirstStr acc.1 t newText, true) else acc)
      step1
    if step2.2 then step2.1 else svgContent

/-! ## server.js : modifySvgDimensions (lines 555–610) -/

/-- `/width="([^"]+)"/i` (line 561) -/
def widthAttrPat : List Atom := [
  .lit ("width=\"".data) true,
  .cls notDq 1 none false true,
  .lit ("\"".data) true]

/-- `/height="([^"]+)"/i` (line 562) -/
def heightAttrPat : List Atom := [
  .lit ("height=\"".data) true,
  .cls notDq 1 none false true,
  .lit ("\"".data) true]

/-- Lines 564–565: the fixed fallback dimension pair, `151.1712`. -/
def defaultDim : ℚ := mkRat 1511712 10000

/-- Lines 560–571: declared dimensions, or the default pair when either
    attribute is absent.  A present-but-unparseable value is `parseFloat`ed
    to NaN (`none`) — the default is *not* applied then. -/
def svgDims (svgContent : Str) : JsNum × JsNum :=
  match firstMatch widthAttrPat svgContent, firstMatch heightAttrPat svgContent with
  | some wcaps, some hcaps => (parseFloatQ wcaps.headI, parseFloatQ hcaps.headI)
  | _, _ => (some defaultDim, some defaultDim)

/-- Line 574. -/
def scaleFactorOf (svgContent : Str) (targetSize : ℚ) : JsNum :=
  let (w, h) := svgDims svgContent
  jsDiv (some targetSize) (jsMax w h)

/-- The exact arithmetic of lines 574 and 587–590 on finite values. -/
def scaleFactorQ (targetSize w h : ℚ) : ℚ := targetSize / max w h

def centerXQ (targetSize w h : ℚ) : ℚ := (targetSize - w * scaleFactorQ targetSize w h) / 2

def centerYQ (targetSize w h : ℚ) : ℚ := (targetSize - h * scaleFactorQ targetSize w h) / 2

/-- Line 581: the replacement root tag. -/
def newSvgTagStr (targetSize : ℚ) : Str :=
  "<svg width=\"".data ++ qToStr targetSize ++ "pt\" height=\"".data ++ qToStr targetSize ++
  "pt\" viewBox=\"0 0 ".data ++ qToStr targetSize ++ " ".data ++ qToStr targetSize ++
  "\" xmlns=\"http://www.w3.org/2000/svg\" xmlns:xlink=\"http://www.w3.org/1999/xlink\"".data ++
  " xmlns:dc=\"http://purl.org/dc/elements/1.1/\" xmlns:cc=\"http://creativecommons.org/ns#\"".data ++
  " xmlns:se=\"http://www.pixopa.com\">".data

/-- Lines 555–610. -/
def modifySvgDimensions (svgContent : Str) (targetSize : ℚ) : Str :=
  let (originalWidth, originalHeight) := svgDims svgContent
  let scaleFactor := jsDiv (some targetSize) (jsMax originalWidth originalHeight)
  match searchFrom svgTagPat svgContent with
  | none => svgContent
  | some (pos, _, len) =>
    let contentAfterSvgTag := jsSubstringFrom svgContent (pos + len)
    let scaledWidth := jsMul originalWidth scaleFactor
    let scaledHeight := jsMul originalHeight scaleFactor
    let centerX := jsDiv (jsSub (some targetSize) scaledWidth) (some 2)
    let centerY := jsDiv (jsSub (some targetSize) scaledHeight) (some 2)
    let scaledContent :=
      "<g transform=\"translate(".data ++ jsNumToStr centerX ++ ", ".data ++
      jsNumToStr centerY ++ ") scale(".data ++ jsNumToStr scaleFactor ++ ")\">".data ++
      replaceFirstStr contentAfterSvgTag ("</svg>".data) [] ++ "</g></svg>".data
    newSvgTagStr targetSize ++ scaledContent

/-! ## Specification-side observables -/

/-- Number of positions at which `needle` occurs in `s`. -/
def countOccurStr (needle s : Str) : Nat :=
  ((List.range (s.length + 1)).filter fun i => isPrefixAt needle (s.drop i)).length

/-- The lines of a text. -/
def splitNl : Str → List Str := jsSplitChar '\n'

/-- The mapping-file rows: the lines written by `rowString`
    (each row is a line of the form `  <type ... />`). -/
def rowsOfContent (c : Str) : List Str :=
  (splitNl c).filter (jsStartsWith ("  <type ".data))

def rowsOfFile : Option Str → List Str
  | none => []
  | some c => rowsOfContent c

/-- Characters allowed in a font-family name for the idempotence theorem:
    letters, digits and spaces (real catalog family names use only these). -/
def isNameChar (c : Char) : Bool :=
  ('a' ≤ c && c ≤ 'z') || ('A' ≤ c && c ≤ 'Z') || isDigit c || c == ' '

/-- Characters allowed in a font file name. -/
def isFileChar (c : Char) : Bool :=
  ('a' ≤ c && c ≤ 'z') || ('A' ≤ c && c ≤ 'Z') || isDigit c ||
  c == '-' || c == '_' || c == '.'

/-- Characters allowed in the font directory path. -/
def isDirChar (c : Char) : Bool := isFileChar c || c == '/'

/-! ### Declarative matching semantics, used by the idempotence proof -/

/-- `AtomsMatch pat u`: the pattern can consume exactly the string `u`. -/
def AtomsMatch : List Atom → Str → Prop
  | [], s => s = []
  | .lit cs ci :: rest, s =>
    ∃ x y, s = x ++ y ∧ stripLit ci cs x = some [] ∧ AtomsMatch rest y
  | .cls p lo hi _ _ :: rest, s =>
    ∃ x y, s = x ++ y ∧ (∀ c ∈ x, p c = true) ∧ lo ≤ x.length ∧
      (∀ hh, hi = some hh → x.length ≤ hh) ∧ AtomsMatch rest y

/-- A string whose final character is `>` and which contains no other `>`. -/
def GtTerminated (u : Str) : Prop :=
  u.getLast? = some '>' ∧ ∀ c ∈ u.dropLast, c ≠ '>'

/-- Every character an atom can consume satisfies `P`. -/
def AtomOk (P : Char → Prop) : Atom → Prop
  | .lit cs ci => ∀ a ∈ cs, ∀ b, charMatch ci a b = true → P b
  | .cls p _ _ _ _ => ∀ b, p b = true → P b

/-- A mapping-row attribute value free of the markup characters the
    idempotence argument relies on. -/
abbrev SafeVal (l : Str) : Prop := ∀ c ∈ l, c ≠ '>' ∧ c ≠ '<' ∧ c ≠ '\n'

/-- All attribute values of a row are safe. -/
def RowSafe (r : RowData) : Prop :=
  SafeVal r.name ∧ SafeVal r.fullname ∧ SafeVal r.family ∧ SafeVal r.style ∧
  SafeVal r.stretch ∧ SafeVal r.weight ∧ SafeVal r.glyphs

/-- `rowCore` without its final `/>`. -/
def rowPre (r : RowData) : Str :=
  "<type name=\"".data ++ r.name ++ "\" fullname=\"".data ++ r.fullname ++
  "\" family=\"".data ++ r.family ++ "\" style=\"".data ++ r.style ++
  "\" stretch=\"".data ++ r.stretch ++ "\" weight=\"".data ++ r.weight ++
  "\" glyphs=\"".data ++ r.glyphs ++ "\" ".data

/-- An atom that records no capture group. -/
def capFree : Atom → Prop
  | .lit _ _ => True
  | .cls _ _ _ _ cap => cap = false

/-- The fresh-file header up to and including the `<typemap>` line. -/
def xmlHeader : Str := "<?xml version=\"1.0\"?>\n<typemap>\n".data

/-- The concatenation of the rendered rows. -/
def rowsBlob (rs : List RowData) : Str := (rs.map rowString).flatten

/-- What the removal loop leaves behind: one `"  \n"` residue per removed row. -/
def resBlob : Nat → Str
  | 0 => []
  | j + 1 => "  \n".data ++ resBlob j

/-- Start position and match length of each row's `<type ... />` tag when the
    rows are laid out consecutively from offset `off`. -/
def rowPositions : Nat → List RowData → List (Nat × Nat)
  | _, [] => []
  | off, r :: rest => (off + 2, (rowCore r).length) :: rowPositions (off + 3 + (rowCore r).length) rest

/-- The `.ttf` directory entries the update step selects for a family
    (lines 279–283). -/
def fontFilesOf (fontName : Str) (dirFiles : List Str) : List Str :=
  let normalizedName := jsToLower (fontName.filter fun c => !isWs c)
  dirFiles.filter fun file =>
    jsStartsWith normalizedName (jsToLower file) && jsEndsWith (".ttf".data) (jsToLower file)

/-! ### Concrete fixtures used by witnesses and counterexamples -/

/-- An environment with a configured key whose network requests all fail. -/
def envNoNet : NetEnv :=
  { apiKey := some ("key".data), catalog := some [], headOk := fun _ => false,
    downloadOk := false }

/-- An environment with no configured API key. -/
def envNoKey : NetEnv :=
  { apiKey := none, catalog := some [], headOk := fun _ => false, downloadOk := false }

def fsEmpty : FsState := { dirFiles := [], typeXml := none }

def docArial : Str := "<text font-family=\"Arial\">x</text>".data

def docRoboto : Str := "<text font-family=\"Roboto\">x</text>".data

/-- A document whose two references to the same family use different raw
    spellings (with and without a fallback chain). -/
def dupFontsDoc : Str :=
  "<a style=\"font-family: Roboto\"/><b font-family=\"Roboto, sans-serif\"/>".data

def frameZeroDoc : Str := "<svg width=\"0\" height=\"100\"><g/></svg>".data

def frameNumDoc : Str := "<svg width=\"200\" height=\"100\"><g/></svg>".data

def nanDimsDoc : Str := "<svg width=\"abc\" height=\"def\"><r/></svg>".data

def betterFontsDoc : Str := "<svg><text font-family=\"Roboto\">hi</text></svg>".data

def betterFonts1 : Str := preprocessSvgForBetterFonts none [] ("/f".data) betterFontsDoc

def betterFonts2 : Str := preprocessSvgForBetterFonts none [] ("/f".data) betterFonts1

/-! ## General lemmas -/

theorem isPrefixAt_iff (n s : Str) : isPrefixAt n s = true ↔ ∃ v, s = n ++ v := by
  induction n generalizing s with
  | nil => simp [isPrefixAt]
  | cons a ns ih =>
    cases s with
    | nil => simp [isPrefixAt]
    | cons c cs =>
      simp only [isPrefixAt, Bool.and_eq_true, beq_iff_eq, ih, List.cons_append]
      constructor
      · rintro ⟨rfl, v, rfl⟩; exact ⟨v, rfl⟩
      · rintro ⟨v, h⟩
        injection h with h1 h2
        exact ⟨h1.symm, v, h2⟩

theorem indexOfStr_isSome_iff (n s : Str) :
    (indexOfStr n s).isSome = true ↔ ∃ u v, s = u ++ n ++ v := by
  induction s with
  | nil =>
    cases n with
    | nil => simp [indexOfStr, List.isEmpty]
    | cons a t =>
      simp only [indexOfStr, List.isEmpty, if_neg]
      constructor
      · intro h; simp at h
      · rintro ⟨u, v, huv⟩
        exact absurd huv (by simp)
  | cons c cs ih =>
    rw [indexOfStr]
    by_cases hp : isPrefixAt n (c :: cs) = true
    · rw [if_pos hp]
      simp only [Option.isSome_some, true_iff]
      obtain ⟨v, hv⟩ := (isPrefixAt_iff n (c :: cs)).1 hp
      exact ⟨[], v, by simpa using hv⟩
    · rw [if_neg hp]
      constructor
      · intro h
        have h' : (indexOfStr n cs).isSome = true := by
          cases hidx : indexOfStr n cs <;> simp [hidx] at h ⊢
        obtain ⟨u, v, huv⟩ := ih.1 h'
        exact ⟨c :: u, v, by simp [huv]⟩
      · rintro ⟨u, v, huv⟩
        cases u with
        | nil =>
          exact absurd ((isPrefixAt_iff n (c :: cs)).2 ⟨v, by simpa using huv⟩) hp
        | cons x xs =>
          injection huv with h1 h2
          have h' := ih.2 ⟨xs, v, h2⟩
          cases hidx : indexOfStr n cs <;> simp [hidx] at h' ⊢

theorem includesStr_iff (n s : Str) :
    includesStr n s = true ↔ ∃ u v, s = u ++ n ++ v := by
  rw [includesStr, indexOfStr_isSome_iff]

/-! ### Character facts -/

theorem char_toNat_ofNat_of_lt {n : Nat} (h : n < 55296) : (Char.ofNat n).toNat = n := by
  unfold Char.ofNat
  rw [dif_pos (Or.inl h : Nat.isValidChar n)]
  simp [Char.ofNatAux, Char.toNat, UInt32.toNat]

theorem char_eq_of_toNat {a b : Char} (h : a.toNat = b.toNat) : a = b :=
  Char.ext (UInt32.toNat.inj h)

theorem char_le_iff {a b : Char} : a ≤ b ↔ a.toNat ≤ b.toNat := by
  rw [Char.le_def, UInt32.le_def, BitVec.le_def]
  rfl

theorem lcAscii_toNat_cases (c : Char) :
    lcAscii c = c ∨ (65 ≤ c.toNat ∧ c.toNat ≤ 90 ∧ (lcAscii c).toNat = c.toNat + 32) := by
  unfold lcAscii
  by_cases h : 'A' ≤ c ∧ c ≤ 'Z'
  · right
    have h1 : (65 : Nat) ≤ c.toNat := char_le_iff.mp h.1
    have h2 : c.toNat ≤ 90 := char_le_iff.mp h.2
    refine ⟨h1, h2, ?_⟩
    rw [if_pos h]
    exact char_toNat_ofNat_of_lt (by omega)
  · left
    rw [if_neg h]

/-- Inverting `lcAscii` at a character that is not a lowercase letter. -/
theorem lcAscii_fix {d : Char} (hd : ¬(97 ≤ d.toNat ∧ d.toNat ≤ 122)) {b : Char}
    (h : lcAscii b = d) : b = d := by
  rcases lcAscii_toNat_cases b with hfix | ⟨h1, h2, h3⟩
  · rw [← hfix]; exact h
  · exact absurd ⟨by rw [h] at h3; omega, by rw [h] at h3; omega⟩ hd

theorem charMatch_lc {ci : Bool} {a b : Char} (h : charMatch ci a b = true) :
    lcAscii a = lcAscii b := by
  unfold charMatch at h
  by_cases hci : ci = true
  · rw [if_pos hci] at h; exact beq_iff_eq.mp h
  · rw [if_neg hci] at h; rw [beq_iff_eq.mp h]

theorem charMatch_refl (ci : Bool) (a : Char) : charMatch ci a a = true := by
  unfold charMatch
  split <;> simp

/-- A character matched against a pattern character whose lower-casing is not
    `>` is itself not `>`. -/
theorem charMatch_ne_gt {ci : Bool} {a b : Char} (h : charMatch ci a b = true)
    (ha : lcAscii a ≠ '>') : b ≠ '>' := by
  intro hb
  subst hb
  exact ha (by rw [charMatch_lc h]; rfl)

theorem isNameChar_ranges {a : Char} (h : isNameChar a = true) :
    (97 ≤ a.toNat ∧ a.toNat ≤ 122) ∨ (65 ≤ a.toNat ∧ a.toNat ≤ 90) ∨
    (48 ≤ a.toNat ∧ a.toNat ≤ 57) ∨ a.toNat = 32 := by
  simp only [isNameChar, isDigit, Bool.or_eq_true, Bool.and_eq_true, beq_iff_eq,
    decide_eq_true_eq, char_le_iff] at h
  rcases h with ((h | h) | h) | h
  · exact Or.inl ⟨h.1, h.2⟩
  · exact Or.inr (Or.inl ⟨h.1, h.2⟩)
  · exact Or.inr (Or.inr (Or.inl ⟨h.1, h.2⟩))
  · exact Or.inr (Or.inr (Or.inr (by rw [h]; rfl)))

theorem isNameChar_lc_ne_gt {a : Char} (h : isNameChar a = true) : lcAscii a ≠ '>' := by
  intro hlc
  have h62 : (lcAscii a).toNat = 62 := by rw [hlc]; rfl
  rcases lcAscii_toNat_cases a with hfix | ⟨_, _, h3⟩
  · rw [hfix] at h62
    rcases isNameChar_ranges h with h' | h' | h' | h' <;> omega
  · rcases isNameChar_ranges h with h' | h' | h' | h' <;> omega

theorem isNameChar_ne {a : Char} (h : isNameChar a = true) :
    a ≠ '>' ∧ a ≠ '<' ∧ a ≠ '\n' ∧ a ≠ '"' := by
  rcases isNameChar_ranges h with h' | h' | h' | h' <;>
    refine ⟨fun he => ?_, fun he => ?_, fun he => ?_, fun he => ?_⟩ <;>
      (subst he; revert h'; decide)

theorem isFileChar_ranges {a : Char} (h : isFileChar a = true) :
    (97 ≤ a.toNat ∧ a.toNat ≤ 122) ∨ (65 ≤ a.toNat ∧ a.toNat ≤ 90) ∨
    (48 ≤ a.toNat ∧ a.toNat ≤ 57) ∨ a.toNat = 45 ∨ a.toNat = 95 ∨ a.toNat = 46 := by
  simp only [isFileChar, isDigit, Bool.or_eq_true, Bool.and_eq_true, beq_iff_eq,
    decide_eq_true_eq, char_le_iff] at h
  rcases h with ((((h | h) | h) | h) | h) | h
  · exact Or.inl ⟨h.1, h.2⟩
  · exact Or.inr (Or.inl ⟨h.1, h.2⟩)
  · exact Or.inr (Or.inr (Or.inl ⟨h.1, h.2⟩))
  · exact Or.inr (Or.inr (Or.inr (Or.inl (by rw [h]; rfl))))
  · exact Or.inr (Or.inr (Or.inr (Or.inr (Or.inl (by rw [h]; rfl)))))
  · exact Or.inr (Or.inr (Or.inr (Or.inr (Or.inr (by rw [h]; rfl)))))

theorem isFileChar_ne {a : Char} (h : isFileChar a = true) :
    a ≠ '>' ∧ a ≠ '<' ∧ a ≠ '\n' ∧ a ≠ '"' := by
  rcases isFileChar_ranges h with h' | h' | h' | h' | h' | h' <;>
    refine ⟨fun he => ?_, fun he => ?_, fun he => ?_, fun he => ?_⟩ <;>
      (subst he; revert h'; decide)

theorem isDirChar_ne {a : Char} (h : isDirChar a = true) :
    a ≠ '>' ∧ a ≠ '<' ∧ a ≠ '\n' ∧ a ≠ '"' := by
  simp only [isDirChar, Bool.or_eq_true, beq_iff_eq] at h
  rcases h with h | h
  · exact isFileChar_ne h
  · subst h; refine ⟨by decide, by decide, by decide, by decide⟩

theorem isWs_ne_gt {a : Char} (h : isWs a = true) : a ≠ '>' := by
  simp only [isWs, Bool.or_eq_true, beq_iff_eq] at h
  rcases h with ((((h | h) | h) | h) | h) | h <;> (subst h; decide)

theorem isQuoteCls_ne_gt {a : Char} (h : isQuoteCls a = true) : a ≠ '>' := by
  simp only [isQuoteCls, Bool.or_eq_true, beq_iff_eq] at h
  rcases h with h | h <;> (subst h; decide)

/-! ### Matcher metatheory -/

theorem firstSome_eq_some {α β : Type} {f : α → Option β} {l : List α} {b : β}
    (h : firstSome f l = some b) : ∃ a ∈ l, f a = some b := by
  induction l with
  | nil => simp [firstSome] at h
  | cons a t ih =>
    simp only [firstSome] at h
    cases hfa : f a with
    | some b' =>
      rw [hfa] at h
      exact ⟨a, List.Mem.head t, by rw [hfa]; exact h⟩
    | none =>
      rw [hfa] at h
      obtain ⟨a', ha', hfa'⟩ := ih h
      exact ⟨a', List.Mem.tail a ha', hfa'⟩

theorem firstSome_isSome_of_mem {α β : Type} {f : α → Option β} {l : List α} {a : α}
    (ha : a ∈ l) (h : (f a).isSome = true) : (firstSome f l).isSome = true := by
  induction l with
  | nil => simp at ha
  | cons x t ih =>
    simp only [firstSome]
    cases hfx : f x with
    | some b => simp
    | none =>
      rcases List.mem_cons.mp ha with rfl | ha'
      · rw [hfx] at h; simp at h
      · exact ih ha'

theorem stripLit_append {ci : Bool} {cs x : Str} (h : stripLit ci cs x = some []) (z : Str) :
    stripLit ci cs (x ++ z) = some z := by
  induction cs generalizing x with
  | nil =>
    rw [stripLit] at h
    injection h with h
    subst h
    rfl
  | cons c cst ih =>
    cases x with
    | nil => simp [stripLit] at h
    | cons d ds =>
      rw [stripLit] at h
      by_cases hm : charMatch ci c d = true
      · rw [if_pos hm] at h
        rw [List.cons_append, stripLit, if_pos hm]
        exact ih h
      · rw [if_neg hm] at h; cases h

theorem stripLit_sound {ci : Bool} {cs s s' : Str} (h : stripLit ci cs s = some s') :
    ∃ x, s = x ++ s' ∧ stripLit ci cs x = some [] := by
  induction cs generalizing s with
  | nil =>
    rw [stripLit] at h
    injection h with h
    exact ⟨[], by rw [h]; rfl, rfl⟩
  | cons c cst ih =>
    cases s with
    | nil => simp [stripLit] at h
    | cons d ds =>
      rw [stripLit] at h
      by_cases hm : charMatch ci c d = true
      · rw [if_pos hm] at h
        obtain ⟨x, rfl, hx⟩ := ih h
        exact ⟨d :: x, rfl, by rw [stripLit, if_pos hm]; exact hx⟩
      · rw [if_neg hm] at h; cases h

theorem stripLit_mem {ci : Bool} {cs x : Str} (h : stripLit ci cs x = some []) :
    ∀ b ∈ x, ∃ a ∈ cs, charMatch ci a b = true := by
  induction cs generalizing x with
  | nil =>
    rw [stripLit] at h
    injection h with h
    subst h
    intro b hb
    simp at hb
  | cons c cst ih =>
    cases x with
    | nil => intro b hb; simp at hb
    | cons d ds =>
      rw [stripLit] at h
      by_cases hm : charMatch ci c d = true
      · rw [if_pos hm] at h
        intro b hb
        rcases List.mem_cons.mp hb with rfl | hb'
        · exact ⟨c, List.Mem.head _, hm⟩
        · obtain ⟨a, ha, hab⟩ := ih h b hb'
          exact ⟨a, List.Mem.tail c ha, hab⟩
      · rw [if_neg hm] at h; cases h

theorem counts_bounds {lo : Nat} {hi : Option Nat} {lz : Bool} {m n : Nat}
    (h : n ∈ counts lo hi lz m) :
    lo ≤ n ∧ n ≤ m ∧ ∀ hh, hi = some hh → n ≤ hh := by
  cases hi with
  | none =>
    simp only [counts] at h
    by_cases hle : lo > m
    · rw [if_pos hle] at h; simp at h
    · rw [if_neg hle] at h
      have hmem : n ∈ (List.range (m - lo + 1)).map (· + lo) := by
        by_cases hlz : lz = true
        · rw [hlz] at h; simpa using h
        · rw [Bool.not_eq_true] at hlz; rw [hlz] at h
          exact List.mem_reverse.mp h
      simp only [List.mem_map, List.mem_range] at hmem
      obtain ⟨k, hk, rfl⟩ := hmem
      exact ⟨Nat.le_add_left lo k, by omega, fun hh hhh => by cases hhh⟩
  | some hb =>
    simp only [counts] at h
    by_cases hle : lo > min hb m
    · rw [if_pos hle] at h; simp at h
    · rw [if_neg hle] at h
      have hmem : n ∈ (List.range (min hb m - lo + 1)).map (· + lo) := by
        by_cases hlz : lz = true
        · rw [hlz] at h; simpa using h
        · rw [Bool.not_eq_true] at hlz; rw [hlz] at h
          exact List.mem_reverse.mp h
      simp only [List.mem_map, List.mem_range] at hmem
      obtain ⟨k, hk, rfl⟩ := hmem
      have hmin : min hb m ≤ hb ∧ min hb m ≤ m := ⟨Nat.min_le_left hb m, Nat.min_le_right hb m⟩
      refine ⟨Nat.le_add_left lo k, by omega, fun hh' hhh => ?_⟩
      injection hhh with hhh
      omega

theorem mem_counts {lo : Nat} {hi : Option Nat} {lz : Bool} {m n : Nat}
    (h1 : lo ≤ n) (h2 : n ≤ m) (h3 : ∀ hh, hi = some hh → n ≤ hh) :
    n ∈ counts lo hi lz m := by
  cases hi with
  | none =>
    simp only [counts]
    rw [if_neg (by omega)]
    have hmem : n ∈ (List.range (m - lo + 1)).map (· + lo) := by
      simp only [List.mem_map, List.mem_range]
      exact ⟨n - lo, by omega, by omega⟩
    by_cases hlz : lz = true
    · rw [hlz]; simpa using hmem
    · rw [Bool.not_eq_true] at hlz; rw [hlz]
      exact List.mem_reverse.mpr (by simpa using hmem)
  | some hb =>
    have hnb : n ≤ hb := h3 hb rfl
    simp only [counts]
    rw [if_neg (by omega)]
    have hmem : n ∈ (List.range (min hb m - lo + 1)).map (· + lo) := by
      simp only [List.mem_map, List.mem_range]
      exact ⟨n - lo, by omega, by omega⟩
    by_cases hlz : lz = true
    · rw [hlz]; simpa using hmem
    · rw [Bool.not_eq_true] at hlz; rw [hlz]
      exact List.mem_reverse.mpr (by simpa using hmem)

theorem runLen_ge {p : Char → Bool} {x : Str} (hx : ∀ c ∈ x, p c = true) (z : Str) :
    x.length ≤ runLen p (x ++ z) := by
  induction x with
  | nil => exact Nat.zero_le _
  | cons c cs ih =>
    rw [List.cons_append, runLen, if_pos (hx c (List.Mem.head cs))]
    have := ih fun d hd => hx d (List.Mem.tail c hd)
    simpa using this

theorem runLen_le_length (p : Char → Bool) (s : Str) : runLen p s ≤ s.length := by
  induction s with
  | nil => exact Nat.le_refl 0
  | cons c cs ih =>
    rw [runLen]
    by_cases hp : p c = true
    · rw [if_pos hp]; simpa using ih
    · rw [if_neg hp]; exact Nat.zero_le _

theorem runLen_take {p : Char → Bool} {s : Str} {n : Nat} (h : n ≤ runLen p s) :
    ∀ c ∈ s.take n, p c = true := by
  induction s generalizing n with
  | nil => intro c hc; simp at hc
  | cons a t ih =>
    cases n with
    | zero => intro c hc; simp at hc
    | succ k =>
      rw [runLen] at h
      by_cases hp : p a = true
      · rw [if_pos hp] at h
        intro c hc
        rcases List.mem_cons.mp (by simpa using hc) with rfl | hc'
        · exact hp
        · exact ih (by omega) c hc'
      · rw [if_neg hp] at h; omega

theorem matchAtoms_sound : ∀ {pat : List Atom} {s : Str} {caps : List Str} {r : Str},
    matchAtoms pat s = some (caps, r) → ∃ u, s = u ++ r ∧ AtomsMatch pat u := by
  intro pat
  induction pat with
  | nil =>
    intro s caps r h
    rw [matchAtoms] at h
    injection h with h
    injection h with h1 h2
    exact ⟨[], by rw [h2]; rfl, rfl⟩
  | cons atom rest ih =>
    intro s caps r h
    cases atom with
    | lit cs ci =>
      rw [matchAtoms] at h
      cases hstrip : stripLit ci cs s with
      | none => rw [hstrip] at h; cases h
      | some s' =>
        rw [hstrip] at h
        obtain ⟨u', hu', hm'⟩ := ih h
        obtain ⟨x, hx, hxs⟩ := stripLit_sound hstrip
        refine ⟨x ++ u', by rw [hx, hu', List.append_assoc], ?_⟩
        exact ⟨x, u', rfl, hxs, hm'⟩
    | cls p lo hi lz cap =>
      rw [matchAtoms] at h
      obtain ⟨n, hn, hfn⟩ := firstSome_eq_some h
      cases hinner : matchAtoms rest (s.drop n) with
      | none => rw [hinner] at hfn; cases hfn
      | some pr =>
        obtain ⟨caps', r'⟩ := pr
        rw [hinner] at hfn
        injection hfn with hfn
        have hr : r' = r := congrArg Prod.snd hfn
        obtain ⟨u', hu', hm'⟩ := ih hinner
        obtain ⟨hlo, hrl, hhi⟩ := counts_bounds hn
        have hlen : (s.take n).length = n := by
          rw [List.length_take]
          have := runLen_le_length p s
          omega
        refine ⟨s.take n ++ u', ?_, ?_⟩
        · rw [← hr, List.append_assoc, ← hu', List.take_append_drop]
        · exact ⟨s.take n, u', rfl, runLen_take hrl, by omega, fun hh hhh => by
            rw [hlen]; exact hhi hh hhh, hm'⟩

theorem matchAtoms_complete : ∀ {pat : List Atom} {u : Str}, AtomsMatch pat u → ∀ z,
    (matchAtoms pat (u ++ z)).isSome = true := by
  intro pat
  induction pat with
  | nil =>
    intro u hu z
    have h : u = [] := hu
    subst h
    rw [matchAtoms]
    rfl
  | cons atom rest ih =>
    intro u hu z
    cases atom with
    | lit cs ci =>
      obtain ⟨x, y, rfl, hx, hy⟩ := hu
      rw [matchAtoms, List.append_assoc, stripLit_append hx (y ++ z)]
      exact ih hy z
    | cls p lo hi lz cap =>
      obtain ⟨x, y, rfl, hx, hlo, hhi, hy⟩ := hu
      rw [matchAtoms]
      have hn : x.length ∈ counts lo hi lz (runLen p ((x ++ y) ++ z)) := by
        refine mem_counts hlo ?_ fun hh hhh => hhi hh hhh
        rw [List.append_assoc]
        exact runLen_ge hx (y ++ z)
      refine firstSome_isSome_of_mem hn ?_
      rw [List.append_assoc, List.drop_left]
      have hsome := ih hy z
      cases hm : matchAtoms rest (y ++ z) with
      | none => rw [hm] at hsome; cases hsome
      | some pr => obtain ⟨caps', r'⟩ := pr; rfl

theorem AtomsMatch_chars {P : Char → Prop} : ∀ {pat : List Atom} {u : Str},
    (∀ a ∈ pat, AtomOk P a) → AtomsMatch pat u → ∀ c ∈ u, P c := by
  intro pat
  induction pat with
  | nil =>
    intro u _ hu c hc
    have h : u = [] := hu
    subst h
    simp at hc
  | cons atom rest ih =>
    intro u hok hu c hc
    cases atom with
    | lit cs ci =>
      obtain ⟨x, y, rfl, hx, hy⟩ := hu
      rcases List.mem_append.mp hc with hcx | hcy
      · obtain ⟨a, ha, hab⟩ := stripLit_mem hx c hcx
        exact hok _ (List.Mem.head rest) a ha c hab
      · exact ih (fun a ha => hok a (List.Mem.tail _ ha)) hy c hcy
    | cls p lo hi lz cap =>
      obtain ⟨x, y, rfl, hx, _, _, hy⟩ := hu
      rcases List.mem_append.mp hc with hcx | hcy
      · exact hok _ (List.Mem.head rest) c (hx c hcx)
      · exact ih (fun a ha => hok a (List.Mem.tail _ ha)) hy c hcy

theorem AtomsMatch_append : ∀ {p q : List Atom} {u : Str},
    AtomsMatch (p ++ q) u ↔ ∃ x y, u = x ++ y ∧ AtomsMatch p x ∧ AtomsMatch q y := by
  intro p
  induction p with
  | nil =>
    intro q u
    constructor
    · intro h; exact ⟨[], u, rfl, rfl, h⟩
    · rintro ⟨x, y, rfl, hx, hy⟩
      have h : x = [] := hx
      subst h
      exact hy
  | cons atom rest ih =>
    intro q u
    cases atom with
    | lit cs ci =>
      constructor
      · rintro ⟨x, y, rfl, hx, hy⟩
        obtain ⟨x', y', rfl, hx', hy'⟩ := ih.mp hy
        exact ⟨x ++ x', y', by rw [List.append_assoc], ⟨x, x', rfl, hx, hx'⟩, hy'⟩
      · rintro ⟨x, y, rfl, ⟨x1, y1, rfl, hx1, hy1⟩, hy⟩
        exact ⟨x1, y1 ++ y, by rw [List.append_assoc], hx1, ih.mpr ⟨y1, y, rfl, hy1, hy⟩⟩
    | cls pc lo hi lz cap =>
      constructor
      · rintro ⟨x, y, rfl, hx, hlo, hhi, hy⟩
        obtain ⟨x', y', rfl, hx', hy'⟩ := ih.mp hy
        exact ⟨x ++ x', y', by rw [List.append_assoc], ⟨x, x', rfl, hx, hlo, hhi, hx'⟩, hy'⟩
      · rintro ⟨x, y, rfl, ⟨x1, y1, rfl, hx1, hlo, hhi, hy1⟩, hy⟩
        exact ⟨x1, y1 ++ y, by rw [List.append_assoc], hx1, hlo, hhi,
          ih.mpr ⟨y1, y, rfl, hy1, hy⟩⟩

/-! ### The type-entry pattern: match shape, uniqueness, and row matches -/

theorem stripLit_self (ci : Bool) : ∀ s : Str, stripLit ci s s = some []
  | [] => rfl
  | c :: t => by rw [stripLit, if_pos (charMatch_refl ci c)]; exact stripLit_self ci t

theorem stripLit_singleton {ci : Bool} {c : Char} {x : Str}
    (h : stripLit ci [c] x = some []) : ∃ b, x = [b] ∧ charMatch ci c b = true := by
  cases x with
  | nil => exact absurd h (by simp [stripLit])
  | cons d ds =>
    rw [stripLit] at h
    by_cases hm : charMatch ci c d = true
    · rw [if_pos hm, stripLit] at h
      injection h with h
      exact ⟨d, by rw [h], hm⟩
    · rw [if_neg hm] at h; cases h

theorem charMatch_gt {ci : Bool} {b : Char} (h : charMatch ci '>' b = true) : b = '>' := by
  have hl : lcAscii '>' = lcAscii b := charMatch_lc h
  have hb : lcAscii b = '>' := by rw [← hl]; rfl
  exact lcAscii_fix (by decide) hb

theorem notGt_of_ne {c : Char} (h : c ≠ '>') : notGt c = true := by
  simp [notGt, h]

theorem ne_of_notGt {c : Char} (h : notGt c = true) : c ≠ '>' := by
  simpa [notGt] using h

theorem typeEntry_shape {f u : Str} (hf : ∀ c ∈ f, isNameChar c = true)
    (h : AtomsMatch (typeEntryPat f) u) : GtTerminated u := by
  have hsplit : typeEntryPat f =
      [Atom.lit ("<type".data) true,
       Atom.cls notGt 0 none false false,
       Atom.lit ("family".data) true,
       Atom.cls isWs 0 none false false,
       Atom.lit ("=".data) true,
       Atom.cls isWs 0 none false false,
       Atom.cls isQuoteCls 1 (some 1) false false,
       Atom.lit f true,
       Atom.cls isQuoteCls 1 (some 1) false false,
       Atom.cls notGt 0 none false false] ++ [Atom.lit (">".data) true] := rfl
  rw [hsplit] at h
  obtain ⟨x, y, rfl, hx, hy⟩ := AtomsMatch_append.mp h
  obtain ⟨x1, y1, rfl, hx1, hy1⟩ := hy
  have hy1' : y1 = [] := hy1
  subst hy1'
  obtain ⟨b, rfl, hb⟩ := stripLit_singleton hx1
  have hb' : b = '>' := charMatch_gt hb
  subst hb'
  have hxgt : ∀ c ∈ x, c ≠ '>' := by
    refine fun c hc => AtomsMatch_chars (P := fun c => c ≠ '>') ?_ hx c hc
    intro a ha
    simp only [List.mem_cons, List.not_mem_nil, or_false] at ha
    rcases ha with rfl | rfl | rfl | rfl | rfl | rfl | rfl | rfl | rfl | rfl
    · intro a ha b hm
      exact charMatch_ne_gt hm ((by decide : ∀ a ∈ "<type".data, lcAscii a ≠ '>') a ha)
    · exact fun b hb => ne_of_notGt hb
    · intro a ha b hm
      exact charMatch_ne_gt hm ((by decide : ∀ a ∈ "family".data, lcAscii a ≠ '>') a ha)
    · exact fun b hb => isWs_ne_gt hb
    · intro a ha b hm
      exact charMatch_ne_gt hm ((by decide : ∀ a ∈ "=".data, lcAscii a ≠ '>') a ha)
    · exact fun b hb => isWs_ne_gt hb
    · exact fun b hb => isQuoteCls_ne_gt hb
    · intro a ha b hm
      exact charMatch_ne_gt hm (isNameChar_lc_ne_gt (hf a ha))
    · exact fun b hb => isQuoteCls_ne_gt hb
    · exact fun b hb => ne_of_notGt hb
  constructor
  · rw [show x ++ (['>'] ++ []) = x ++ ['>'] from by simp]
    exact List.getLast?_concat x
  · rw [show x ++ (['>'] ++ []) = x ++ ['>'] from by simp, List.dropLast_concat]
    exact hxgt

theorem gtTerminated_ne_nil {u : Str} (h : GtTerminated u) : u ≠ [] := by
  intro he
  rw [he] at h
  exact absurd h.1 (by simp)

theorem gtTerminated_prefix_eq {u1 u2 : Str} (hp : u1 <+: u2)
    (h1 : GtTerminated u1) (h2 : GtTerminated u2) : u1 = u2 := by
  obtain ⟨w, rfl⟩ := hp
  cases w with
  | nil => rw [List.append_nil]
  | cons d ds =>
    exfalso
    have hne : u1 ≠ [] := gtTerminated_ne_nil h1
    have hlast : u1.getLast hne = '>' := by
      have h := h1.1
      rwa [List.getLast?_eq_getLast u1 hne, Option.some_inj] at h
    have hu1 : u1.dropLast ++ ['>'] = u1 := by
      rw [← hlast]; exact List.dropLast_concat_getLast hne
    have hmem : '>' ∈ (u1 ++ d :: ds).dropLast := by
      rw [← hu1, List.append_assoc, List.dropLast_append_of_ne_nil _ (by simp)]
      refine List.mem_append_right _ ?_
      rw [show (['>'] : Str) ++ d :: ds = '>' :: d :: ds from rfl, List.dropLast_cons₂]
      exact List.mem_cons_self '>' _
    exact h2.2 '>' hmem rfl

theorem gtTerminated_unique {u1 v1 u2 v2 : Str} (he : u1 ++ v1 = u2 ++ v2)
    (h1 : GtTerminated u1) (h2 : GtTerminated u2) : u1 = u2 := by
  have hp1 : u1 <+: u2 ++ v2 := he ▸ List.prefix_append u1 v1
  have hp2 : u2 <+: u2 ++ v2 := List.prefix_append u2 v2
  rcases List.prefix_or_prefix_of_prefix hp1 hp2 with hp | hp
  · exact gtTerminated_prefix_eq hp h1 h2
  · exact (gtTerminated_prefix_eq hp h2 h1).symm

theorem safeVal_append {a b : Str} (ha : SafeVal a) (hb : SafeVal b) : SafeVal (a ++ b) := by
  intro c hc
  rcases List.mem_append.mp hc with h | h
  · exact ha c h
  · exact hb c h

theorem rowPre_no_gt {r : RowData} (h : RowSafe r) : ∀ c ∈ rowPre r, c ≠ '>' := by
  obtain ⟨h1, h2, h3, h4, h5, h6, h7⟩ := h
  intro c hc
  rw [rowPre] at hc
  simp only [List.append_assoc, List.mem_append] at hc
  rcases hc with hc | hc | hc | hc | hc | hc | hc | hc | hc | hc | hc | hc | hc | hc | hc
  · exact (by decide : ∀ x ∈ "<type name=\"".data, x ≠ '>') c hc
  · exact (h1 c hc).1
  · exact (by decide : ∀ x ∈ "\" fullname=\"".data, x ≠ '>') c hc
  · exact (h2 c hc).1
  · exact (by decide : ∀ x ∈ "\" family=\"".data, x ≠ '>') c hc
  · exact (h3 c hc).1
  · exact (by decide : ∀ x ∈ "\" style=\"".data, x ≠ '>') c hc
  · exact (h4 c hc).1
  · exact (by decide : ∀ x ∈ "\" stretch=\"".data, x ≠ '>') c hc
  · exact (h5 c hc).1
  · exact (by decide : ∀ x ∈ "\" weight=\"".data, x ≠ '>') c hc
  · exact (h6 c hc).1
  · exact (by decide : ∀ x ∈ "\" glyphs=\"".data, x ≠ '>') c hc
  · exact (h7 c hc).1
  · exact (by decide : ∀ x ∈ "\" ".data, x ≠ '>') c hc

theorem rowCore_no_nl {r : RowData} (h : RowSafe r) : ∀ c ∈ rowCore r, c ≠ '\n' := by
  obtain ⟨h1, h2, h3, h4, h5, h6, h7⟩ := h
  intro c hc
  rw [rowCore] at hc
  simp only [List.append_assoc, List.mem_append] at hc
  rcases hc with hc | hc | hc | hc | hc | hc | hc | hc | hc | hc | hc | hc | hc | hc | hc
  · exact (by decide : ∀ x ∈ "<type name=\"".data, x ≠ '\n') c hc
  · exact (h1 c hc).2.2
  · exact (by decide : ∀ x ∈ "\" fullname=\"".data, x ≠ '\n') c hc
  · exact (h2 c hc).2.2
  · exact (by decide : ∀ x ∈ "\" family=\"".data, x ≠ '\n') c hc
  · exact (h3 c hc).2.2
  · exact (by decide : ∀ x ∈ "\" style=\"".data, x ≠ '\n') c hc
  · exact (h4 c hc).2.2
  · exact (by decide : ∀ x ∈ "\" stretch=\"".data, x ≠ '\n') c hc
  · exact (h5 c hc).2.2
  · exact (by decide : ∀ x ∈ "\" weight=\"".data, x ≠ '\n') c hc
  · exact (h6 c hc).2.2
  · exact (by decide : ∀ x ∈ "\" glyphs=\"".data, x ≠ '\n') c hc
  · exact (h7 c hc).2.2
  · exact (by decide : ∀ x ∈ "\" />".data, x ≠ '\n') c hc

theorem rowCore_decomp (r : RowData) : rowCore r = rowPre r ++ '/' :: '>' :: [] := by
  simp only [rowCore, rowPre, List.append_assoc]
  rfl

theorem rowCore_gtTerminated {r : RowData} (h : RowSafe r) : GtTerminated (rowCore r) := by
  rw [rowCore_decomp]
  constructor
  · rw [show rowPre r ++ '/' :: '>' :: [] = (rowPre r ++ ['/']) ++ ['>'] from by simp]
    exact List.getLast?_concat _
  · rw [show rowPre r ++ '/' :: '>' :: [] = (rowPre r ++ ['/']) ++ ['>'] from by simp,
      List.dropLast_concat]
    intro c hc
    rcases List.mem_append.mp hc with h' | h'
    · exact rowPre_no_gt h c h'
    · rw [List.mem_singleton.mp h']
      decide

theorem rowCore_length_ge (r : RowData) : 10 ≤ (rowCore r).length := by
  simp only [rowCore, List.length_append, List.length_cons, List.length_nil]
  omega

theorem matchAtoms_nocap : ∀ {pat : List Atom} {s : Str} {caps : List Str} {r : Str},
    (∀ a ∈ pat, capFree a) → matchAtoms pat s = some (caps, r) → caps = [] := by
  intro pat
  induction pat with
  | nil =>
    intro s caps r _ h
    rw [matchAtoms] at h
    injection h with h
    have hc : ([] : List Str) = caps := congrArg Prod.fst h
    exact hc.symm
  | cons atom rest ih =>
    intro s caps r hok h
    cases atom with
    | lit cs ci =>
      rw [matchAtoms] at h
      cases hs : stripLit ci cs s with
      | none => rw [hs] at h; cases h
      | some s' =>
        rw [hs] at h
        exact ih (fun a ha => hok a (List.Mem.tail _ ha)) h
    | cls p lo hi lz cap =>
      rw [matchAtoms] at h
      obtain ⟨n, hn, hfn⟩ := firstSome_eq_some h
      cases hm : matchAtoms rest (s.drop n) with
      | none => rw [hm] at hfn; cases hfn
      | some pr =>
        obtain ⟨caps', r'⟩ := pr
        rw [hm] at hfn
        injection hfn with hfn
        have hcap : cap = false := hok _ (List.Mem.head _)
        have h1 : (if cap then [s.take n] else []) ++ caps' = caps := congrArg Prod.fst hfn
        rw [hcap] at h1
        simp only [if_neg Bool.false_ne_true, List.nil_append] at h1
        rw [← h1]
        exact ih (fun a ha => hok a (List.Mem.tail _ ha)) hm

theorem typeEntryPat_capFree (f : Str) : ∀ a ∈ typeEntryPat f, capFree a := by
  intro a ha
  simp only [typeEntryPat, List.mem_cons, List.not_mem_nil, or_false] at ha
  rcases ha with rfl | rfl | rfl | rfl | rfl | rfl | rfl | rfl | rfl | rfl | rfl <;> trivial

theorem AtomsMatch_lit_cons {cs : Str} {ci : Bool} {rest : List Atom} {x y : Str}
    (h1 : stripLit ci cs x = some []) (h2 : AtomsMatch rest y) :
    AtomsMatch (.lit cs ci :: rest) (x ++ y) := ⟨x, y, rfl, h1, h2⟩

theorem AtomsMatch_cls_cons {p : Char → Bool} {lo : Nat} {hi : Option Nat} {lz cap : Bool}
    {rest : List Atom} {x y : Str} (hx : ∀ c ∈ x, p c = true) (hlo : lo ≤ x.length)
    (hhi : ∀ hh, hi = some hh → x.length ≤ hh) (h2 : AtomsMatch rest y) :
    AtomsMatch (.cls p lo hi lz cap :: rest) (x ++ y) := ⟨x, y, rfl, hx, hlo, hhi, h2⟩

theorem rowCore_AtomsMatch {f : Str} {r : RowData} (hr : RowSafe r) (hfam : r.family = f) :
    AtomsMatch (typeEntryPat f) (rowCore r) := by
  obtain ⟨hn, hfn, hfa, hst, hstr, hw, hg⟩ := hr
  have h1 : AtomsMatch [] ([] : Str) := rfl
  have h2 : AtomsMatch [Atom.lit (">".data) true] (">".data ++ []) :=
    AtomsMatch_lit_cons (stripLit_self true _) h1
  have hu2 : ∀ c ∈ " style=\"".data ++ (r.style ++ ("\" stretch=\"".data ++ (r.stretch ++
      ("\" weight=\"".data ++ (r.weight ++ ("\" glyphs=\"".data ++ (r.glyphs ++ "\" /".data))))))),
      notGt c = true := by
    intro c hc
    refine notGt_of_ne ?_
    rcases List.mem_append.mp hc with h | hc
    · exact (by decide : ∀ x ∈ " style=\"".data, x ≠ '>') c h
    rcases List.mem_append.mp hc with h | hc
    · exact (hst c h).1
    rcases List.mem_append.mp hc with h | hc
    · exact (by decide : ∀ x ∈ "\" stretch=\"".data, x ≠ '>') c h
    rcases List.mem_append.mp hc with h | hc
    · exact (hstr c h).1
    rcases List.mem_append.mp hc with h | hc
    · exact (by decide : ∀ x ∈ "\" weight=\"".data, x ≠ '>') c h
    rcases List.mem_append.mp hc with h | hc
    · exact (hw c h).1
    rcases List.mem_append.mp hc with h | hc
    · exact (by decide : ∀ x ∈ "\" glyphs=\"".data, x ≠ '>') c h
    rcases List.mem_append.mp hc with h | hc
    · exact (hg c h).1
    · exact (by decide : ∀ x ∈ "\" /".data, x ≠ '>') c hc
  have h3 := @AtomsMatch_cls_cons notGt 0 none false false _ _ _
    hu2 (Nat.zero_le _) (fun hh hhh => by cases hhh) h2
  have h4 := @AtomsMatch_cls_cons isQuoteCls 1 (some 1) false false _ ['"'] _
    (by decide) (by decide)
    (fun hh hhh => by injection hhh with h; rw [← h]; decide) h3
  have hstripf : stripLit true f r.family = some [] := by
    rw [hfam]; exact stripLit_self true f
  have h5 := AtomsMatch_lit_cons hstripf h4
  have h6 := @AtomsMatch_cls_cons isQuoteCls 1 (some 1) false false _ ['"'] _
    (by decide) (by decide)
    (fun hh hhh => by injection hhh with h; rw [← h]; decide) h5
  have h7 := @AtomsMatch_cls_cons isWs 0 none false false _ [] _
    (fun c hc => absurd hc (List.not_mem_nil c)) (Nat.le_refl 0)
    (fun hh hhh => by cases hhh) h6
  have h8 := AtomsMatch_lit_cons (stripLit_self true ("=".data)) h7
  have h9 := @AtomsMatch_cls_cons isWs 0 none false false _ [] _
    (fun c hc => absurd hc (List.not_mem_nil c)) (Nat.le_refl 0)
    (fun hh hhh => by cases hhh) h8
  have h10 := AtomsMatch_lit_cons (stripLit_self true ("family".data)) h9
  have hu1 : ∀ c ∈ " name=\"".data ++ (r.name ++ ("\" fullname=\"".data ++
      (r.fullname ++ "\" ".data))), notGt c = true := by
    intro c hc
    refine notGt_of_ne ?_
    rcases List.mem_append.mp hc with h | hc
    · exact (by decide : ∀ x ∈ " name=\"".data, x ≠ '>') c h
    rcases List.mem_append.mp hc with h | hc
    · exact (hn c h).1
    rcases List.mem_append.mp hc with h | hc
    · exact (by decide : ∀ x ∈ "\" fullname=\"".data, x ≠ '>') c h
    rcases List.mem_append.mp hc with h | hc
    · exact (hfn c h).1
    · exact (by decide : ∀ x ∈ "\" ".data, x ≠ '>') c hc
  have h11 := @AtomsMatch_cls_cons notGt 0 none false false _ _ _
    hu1 (Nat.zero_le _) (fun hh hhh => by cases hhh) h10
  have h12 := AtomsMatch_lit_cons (stripLit_self true ("<type".data)) h11
  have heq : rowCore r = "<type".data ++ ((" name=\"".data ++ (r.name ++ ("\" fullname=\"".data ++
      (r.fullname ++ "\" ".data)))) ++ ("family".data ++ ([] ++ ("=".data ++ ([] ++ (['"'] ++
      (r.family ++ (['"'] ++ ((" style=\"".data ++ (r.style ++ ("\" stretch=\"".data ++
      (r.stretch ++ ("\" weight=\"".data ++ (r.weight ++ ("\" glyphs=\"".data ++
      (r.glyphs ++ "\" /".data)))))))) ++ (">".data ++ ([] : Str))))))))))) := by
    simp only [rowCore, List.append_assoc, List.nil_append]
    rfl
  rw [heq]
  exact h12

theorem typeEntry_rowMatch {f : Str} {r : RowData} (hf : ∀ c ∈ f, isNameChar c = true)
    (hr : RowSafe r) (hfam : r.family = f) (z : Str) :
    matchAtoms (typeEntryPat f) (rowCore r ++ z) = some ([], z) := by
  have hmatch := rowCore_AtomsMatch hr hfam
  have hsome := matchAtoms_complete hmatch z
  cases hm : matchAtoms (typeEntryPat f) (rowCore r ++ z) with
  | none => rw [hm] at hsome; cases hsome
  | some pr =>
    obtain ⟨caps, rest⟩ := pr
    obtain ⟨u, hu, hum⟩ := matchAtoms_sound hm
    have hsh : GtTerminated u := typeEntry_shape hf hum
    have hsh2 : GtTerminated (rowCore r) := rowCore_gtTerminated hr
    have huu : rowCore r = u := gtTerminated_unique hu hsh2 hsh
    rw [← huu] at hu
    have hrest : z = rest := List.append_cancel_left hu
    have hcaps : caps = [] := matchAtoms_nocap (typeEntryPat_capFree f) hm
    rw [hcaps, ← hrest]

/-! ### Locating the row matches in the mapping-file content -/

theorem searchFrom_append_none {pat : List Atom} : ∀ (pre S : Str),
    (∀ i, i < pre.length → matchAtoms pat ((pre ++ S).drop i) = none) →
    searchFrom pat (pre ++ S) = (searchFrom pat S).map fun pr => (pr.1 + pre.length, pr.2) := by
  intro pre
  induction pre with
  | nil =>
    intro S _
    rw [List.nil_append]
    cases h : searchFrom pat S with
    | none => rfl
    | some pr => obtain ⟨p, caps, len⟩ := pr; rfl
  | cons c t ih =>
    intro S hfail
    rw [List.cons_append, searchFrom]
    have h0 : matchAtoms pat (c :: (t ++ S)) = none := hfail 0 (by simp)
    rw [h0]
    have hrec := ih S fun i hi =>
      (hfail (i + 1) (by simp only [List.length_cons]; omega) :
        matchAtoms pat ((t ++ S).drop i) = none)
    rw [hrec]
    cases hs : searchFrom pat S with
    | none => rfl
    | some pr => obtain ⟨p, caps, len⟩ := pr; rfl

theorem searchFrom_at_match {pat : List Atom} {s : Str} {caps : List Str} {r : Str}
    (hs : s ≠ []) (h : matchAtoms pat s = some (caps, r)) :
    searchFrom pat s = some (0, caps, s.length - r.length) := by
  cases s with
  | nil => exact absurd rfl hs
  | cons c t => rw [searchFrom, h]

theorem searchFrom_row {f : Str} {r : RowData} (hf : ∀ c ∈ f, isNameChar c = true)
    (hr : RowSafe r) (hfam : r.family = f) (z : Str) :
    searchFrom (typeEntryPat f) ('\n' :: ' ' :: ' ' :: (rowCore r ++ z)) =
      some (3, [], (rowCore r).length) := by
  have hm := typeEntry_rowMatch hf hr hfam z
  have hpre : ∀ i, i < (['\n', ' ', ' '] : Str).length →
      matchAtoms (typeEntryPat f) (((['\n', ' ', ' '] : Str) ++ (rowCore r ++ z)).drop i) =
        none := by
    intro i hi
    have hi' : i < 3 := hi
    interval_cases i
    · rfl
    · rfl
    · rfl
  have hsplit : ('\n' :: ' ' :: ' ' :: (rowCore r ++ z)) =
      (['\n', ' ', ' '] : Str) ++ (rowCore r ++ z) := rfl
  rw [hsplit, searchFrom_append_none _ _ hpre]
  have hne : rowCore r ++ z ≠ [] := by
    intro he
    have h0 := (List.append_eq_nil.mp he).1
    have h10 := rowCore_length_ge r
    rw [h0] at h10
    exact absurd h10 (by decide)
  rw [searchFrom_at_match hne hm]
  have hlen : (rowCore r ++ z).length - z.length = (rowCore r).length := by
    rw [List.length_append]; omega
  rw [hlen]
  rfl

theorem blob_len_ge : ∀ rs : List RowData, 3 * rs.length ≤ (rowsBlob rs).length := by
  intro rs
  induction rs with
  | nil => simp [rowsBlob]
  | cons r rest ih =>
    have hb : rowsBlob (r :: rest) = rowString r ++ rowsBlob rest := by
      simp [rowsBlob]
    have hr : (rowString r).length = (rowCore r).length + 3 := by
      simp only [rowString, List.length_append, List.length_cons, List.length_nil]
      omega
    rw [hb, List.length_append, hr]
    simp only [List.length_cons]
    omega

theorem scan_rows {f : Str} (hf : ∀ c ∈ f, isNameChar c = true) :
    ∀ (rs : List RowData) (off fuel : Nat), rs.length + 1 ≤ fuel →
    (∀ r ∈ rs, RowSafe r ∧ r.family = f) →
    scanAllAux (typeEntryPat f) ('\n' :: (rowsBlob rs ++ "</typemap>".data)) off fuel =
      (rowPositions (off + 1) rs).map fun pr => (pr.1, ([] : List Str), pr.2) := by
  intro rs
  induction rs with
  | nil =>
    intro off fuel hfuel _
    obtain ⟨F, rfl⟩ : ∃ F, fuel = F + 1 := ⟨fuel - 1, by omega⟩
    rw [scanAllAux]
    rw [show searchFrom (typeEntryPat f) ('\n' :: (rowsBlob [] ++ "</typemap>".data)) = none
      from rfl]
    rfl
  | cons r rest ih =>
    intro off fuel hfuel hsafe
    obtain ⟨F, rfl⟩ : ∃ F, fuel = F + 1 := ⟨fuel - 1, by omega⟩
    rw [scanAllAux]
    obtain ⟨hrS, hrF⟩ := hsafe r (List.Mem.head rest)
    have hsp : '\n' :: (rowsBlob (r :: rest) ++ "</typemap>".data) =
        '\n' :: ' ' :: ' ' :: (rowCore r ++ ('\n' :: (rowsBlob rest ++ "</typemap>".data))) := by
      simp only [rowsBlob, List.map_cons, List.flatten_cons, rowString, List.append_assoc,
        List.cons_append, List.nil_append]
    rw [hsp, searchFrom_row hf hrS hrF]
    dsimp only
    rw [if_neg (by have := rowCore_length_ge r; omega)]
    have hdrop : ('\n' :: ' ' :: ' ' :: (rowCore r ++ ('\n' :: (rowsBlob rest ++
        "</typemap>".data)))).drop (3 + (rowCore r).length) =
        '\n' :: (rowsBlob rest ++ "</typemap>".data) := by
      rw [show ('\n' :: ' ' :: ' ' :: (rowCore r ++ ('\n' :: (rowsBlob rest ++
          "</typemap>".data)))) = ((['\n', ' ', ' '] : Str) ++ rowCore r) ++
          ('\n' :: (rowsBlob rest ++ "</typemap>".data)) from by simp]
      refine List.drop_left' ?_
      simp only [List.length_append, List.length_cons, List.length_nil]
    rw [hdrop]
    rw [ih (off + 3 + (rowCore r).length) F
      (by have hl : (r :: rest).length = rest.length + 1 := rfl; omega)
      (fun r' hr' => hsafe r' (List.Mem.tail _ hr'))]
    rw [rowPositions]
    rw [show off + 3 + (rowCore r).length + 1 = off + 1 + 3 + (rowCore r).length from by omega]
    rfl

theorem scanAllAux_c1 {f : Str} (hf : ∀ c ∈ f, isNameChar c = true) :
    ∀ (rs : List RowData) (fuel : Nat), rs.length + 2 ≤ fuel →
    (∀ r ∈ rs, RowSafe r ∧ r.family = f) →
    scanAllAux (typeEntryPat f) (xmlHeader ++ (rowsBlob rs ++ "</typemap>".data)) 0 fuel =
      (rowPositions 32 rs).map fun pr => (pr.1, ([] : List Str), pr.2) := by
  intro rs fuel hfuel hsafe
  obtain ⟨F, rfl⟩ : ∃ F, fuel = F + 1 := ⟨fuel - 1, by omega⟩
  rw [scanAllAux]
  have hsp : xmlHeader ++ (rowsBlob rs ++ "</typemap>".data) =
      "<?xml version=\"1.0\"?>\n<typemap>".data ++
        ('\n' :: (rowsBlob rs ++ "</typemap>".data)) := rfl
  rw [hsp]
  have hpre : ∀ i, i < ("<?xml version=\"1.0\"?>\n<typemap>".data).length →
      matchAtoms (typeEntryPat f) (("<?xml version=\"1.0\"?>\n<typemap>".data ++
        ('\n' :: (rowsBlob rs ++ "</typemap>".data))).drop i) = none := by
    intro i hi
    have hi' : i < 31 := hi
    interval_cases i <;> rfl
  rw [searchFrom_append_none _ _ hpre]
  cases rs with
  | nil =>
    rw [show searchFrom (typeEntryPat f) ('\n' :: (rowsBlob [] ++ "</typemap>".data)) = none
      from rfl]
    rfl
  | cons r rest =>
    obtain ⟨hrS, hrF⟩ := hsafe r (List.Mem.head rest)
    have hsp2 : '\n' :: (rowsBlob (r :: rest) ++ "</typemap>".data) =
        '\n' :: ' ' :: ' ' :: (rowCore r ++ ('\n' :: (rowsBlob rest ++ "</typemap>".data))) := by
      simp only [rowsBlob, List.map_cons, List.flatten_cons, rowString, List.append_assoc,
        List.cons_append, List.nil_append]
    rw [hsp2, searchFrom_row hf hrS hrF]
    rw [show (some (3, ([] : List Str), (rowCore r).length)).map
        (fun pr => (pr.1 + ("<?xml version=\"1.0\"?>\n<typemap>".data).length, pr.2)) =
        some (34, ([] : List Str), (rowCore r).length) from rfl]
    dsimp only
    rw [if_neg (by have := rowCore_length_ge r; omega)]
    have hdrop : ("<?xml version=\"1.0\"?>\n<typemap>".data ++
        ('\n' :: ' ' :: ' ' :: (rowCore r ++ ('\n' :: (rowsBlob rest ++
        "</typemap>".data))))).drop (34 + (rowCore r).length) =
        '\n' :: (rowsBlob rest ++ "</typemap>".data) := by
      rw [show ("<?xml version=\"1.0\"?>\n<typemap>".data ++
          ('\n' :: ' ' :: ' ' :: (rowCore r ++ ('\n' :: (rowsBlob rest ++
          "</typemap>".data))))) = ("<?xml version=\"1.0\"?>\n<typemap>".data ++
          ((['\n', ' ', ' '] : Str) ++ rowCore r)) ++
          ('\n' :: (rowsBlob rest ++ "</typemap>".data)) from by simp]
      refine List.drop_left' ?_
      simp only [List.length_append, List.length_cons, List.length_nil]
      omega
    rw [show (0 : Nat) + 34 = 34 from rfl]
    rw [hdrop]
    rw [scan_rows hf rest (34 + (rowCore r).length) F
      (by have hl : (r :: rest).length = rest.length + 1 := rfl; omega)
      (fun r' hr' => hsafe r' (List.Mem.tail _ hr'))]
    rw [rowPositions]
    rw [show 34 + (rowCore r).length + 1 = 32 + 3 + (rowCore r).length from by omega]
    rfl

/-! ### Computing the entries the removal loop collects -/

theorem isPrefixAt_self_append (x z : Str) : isPrefixAt x (x ++ z) = true :=
  (isPrefixAt_iff x (x ++ z)).2 ⟨z, rfl⟩

theorem isPrefixAt_length {n s : Str} (h : isPrefixAt n s = true) : n.length ≤ s.length := by
  obtain ⟨v, rfl⟩ := (isPrefixAt_iff n s).1 h
  rw [List.length_append]
  exact Nat.le_add_right _ _

theorem isPrefixAt_false_of_short {n s : Str} (h : s.length < n.length) :
    isPrefixAt n s = false := by
  cases hp : isPrefixAt n s
  · rfl
  · exact absurd (isPrefixAt_length hp) (by omega)

theorem indexOfStr_self_append {x : Str} (hx : x ≠ []) (z : Str) :
    indexOfStr x (x ++ z) = some 0 := by
  cases x with
  | nil => exact absurd rfl hx
  | cons c t =>
    rw [List.cons_append, indexOfStr, if_pos]
    exact isPrefixAt_self_append (c :: t) z

theorem indexOfStr_shift {needle : Str} : ∀ (pre rest : Str),
    (∀ i, i < pre.length → isPrefixAt needle ((pre ++ rest).drop i) = false) →
    indexOfStr needle (pre ++ rest) = (indexOfStr needle rest).map (· + pre.length) := by
  intro pre
  induction pre with
  | nil =>
    intro rest _
    rw [List.nil_append]
    cases h : indexOfStr needle rest with
    | none => rfl
    | some i => rfl
  | cons c t ih =>
    intro rest hfail
    rw [List.cons_append, indexOfStr]
    have h0 : isPrefixAt needle (c :: (t ++ rest)) = false := hfail 0 (by simp)
    rw [h0, if_neg Bool.false_ne_true]
    have hrec := ih rest fun i hi =>
      (hfail (i + 1) (by simp only [List.length_cons]; omega) :
        isPrefixAt needle ((t ++ rest).drop i) = false)
    rw [hrec]
    cases hs : indexOfStr needle rest with
    | none => rfl
    | some i => rfl

theorem indexOf_slashGt : ∀ (X z : Str), '>' ∉ X →
    indexOfStr ("/>".data) (X ++ '/' :: '>' :: z) = some X.length := by
  intro X
  induction X with
  | nil =>
    intro z _
    rw [List.nil_append, indexOfStr,
      if_pos (show isPrefixAt ("/>".data) ('/' :: '>' :: z) = true from rfl)]
    rfl
  | cons c t ih =>
    intro z hgt
    have hnott : '>' ∉ t := fun hm => hgt (List.mem_cons_of_mem c hm)
    rw [List.cons_append, indexOfStr]
    have hp : isPrefixAt ("/>".data) (c :: (t ++ '/' :: '>' :: z)) = false := by
      rw [show ("/>".data) = '/' :: '>' :: [] from rfl, isPrefixAt]
      by_cases hc : c = '/'
      · subst hc
        simp only [beq_self_eq_true, Bool.true_and]
        cases t with
        | nil => rfl
        | cons d t' =>
          have hd : d ≠ '>' := fun h => hnott (by rw [← h]; exact List.mem_cons_self d t')
          rw [List.cons_append, isPrefixAt,
            show ('>' == d) = false from beq_eq_false_iff_ne.mpr (Ne.symm hd), Bool.false_and]
      · rw [show ('/' == c) = false from beq_eq_false_iff_ne.mpr (Ne.symm hc), Bool.false_and]
    rw [hp, if_neg Bool.false_ne_true, ih z hnott]
    rfl

theorem drop_append_len : ∀ (a b : Str) (m : Nat), (a ++ b).drop (a.length + m) = b.drop m := by
  intro a
  induction a with
  | nil =>
    intro b m
    rw [List.nil_append, show ([] : Str).length + m = m from by simp]
  | cons c t ih =>
    intro b m
    rw [List.cons_append,
      show (c :: t).length + m = (t.length + m) + 1 from by simp only [List.length_cons]; omega,
      List.drop_succ_cons]
    exact ih b m

theorem substring_middle (P m z : Str) :
    jsSubstring (P ++ (m ++ z)) P.length (P.length + m.length) = m := by
  rw [jsSubstring, show P ++ (m ++ z) = (P ++ m) ++ z from (List.append_assoc P m z).symm,
    List.take_left' (by rw [List.length_append])]
  exact List.drop_left P m

theorem rowString_length (r : RowData) : (rowString r).length = (rowCore r).length + 3 := by
  simp only [rowString, List.length_append, List.length_cons, List.length_nil]
  omega

theorem rowCore_pre_length (r : RowData) : (rowCore r).length = (rowPre r).length + 2 := by
  rw [rowCore_decomp, List.length_append]
  rfl

theorem entriesAux {C : Str} : ∀ (rs : List RowData) (P tail : Str),
    (∀ r ∈ rs, RowSafe r) →
    C = P ++ (rowsBlob rs ++ tail) →
    ((rowPositions P.length rs).map fun pr =>
        ((pr.1, ([] : List Str), pr.2) : Nat × List Str × Nat)).filterMap
      (fun m =>
        let startPos := m.1
        let endPos : Int :=
          (match indexOfFrom ("/>".data) C startPos with
           | none => -1
           | some j => (j : Int)) + 2
        if (startPos : Int) < endPos then some (jsSubstring C startPos endPos.toNat)
        else none)
    = rs.map rowCore := by
  intro rs
  induction rs with
  | nil => intro P tail _ _; rfl
  | cons r rest ih =>
    intro P tail hsafe hC
    have hrS : RowSafe r := hsafe r (List.Mem.head rest)
    have hC2 : C = (P ++ "  ".data) ++ (rowCore r ++ ('\n' :: (rowsBlob rest ++ tail))) := by
      rw [hC]
      simp only [rowsBlob, List.map_cons, List.flatten_cons, rowString, List.append_assoc,
        List.cons_append, List.nil_append]
    have hne_gt : '>' ∉ rowPre r := fun hm => (rowPre_no_gt hrS '>' hm) rfl
    have hP2 : (P ++ "  ".data).length = P.length + 2 := by
      rw [List.length_append]
      rfl
    have hdropC : C.drop (P.length + 2) =
        rowPre r ++ ('/' :: '>' :: ('\n' :: (rowsBlob rest ++ tail))) := by
      rw [hC2, show P.length + 2 = (P ++ "  ".data).length from hP2.symm,
        List.drop_left' rfl, rowCore_decomp, List.append_assoc]
      rfl
    have hidx : indexOfFrom ("/>".data) C (P.length + 2) =
        some ((rowPre r).length + (P.length + 2)) := by
      rw [indexOfFrom, hdropC, indexOf_slashGt _ _ hne_gt]
      rfl
    have hsub : jsSubstring C (P.length + 2) ((rowPre r).length + (P.length + 2) + 2) =
        rowCore r := by
      have hend : (rowPre r).length + (P.length + 2) + 2 =
          (P ++ "  ".data).length + (rowCore r).length := by
        rw [rowCore_pre_length, hP2]
        omega
      rw [hC2, hend, show P.length + 2 = (P ++ "  ".data).length from hP2.symm]
      exact substring_middle _ _ _
    rw [rowPositions, List.map_cons, List.filterMap_cons]
    dsimp only
    rw [hidx]
    dsimp only
    have hcond : ((P.length + 2 : Nat) : Int) <
        (((rowPre r).length + (P.length + 2) : Nat) : Int) + 2 := by push_cast; omega
    rw [if_pos hcond]
    rw [show (((((rowPre r).length + (P.length + 2) : Nat) : Int)) + 2).toNat =
      (rowPre r).length + (P.length + 2) + 2 from by omega]
    rw [hsub]
    have hC3 : C = (P ++ rowString r) ++ (rowsBlob rest ++ tail) := by
      rw [hC]
      simp only [rowsBlob, List.map_cons, List.flatten_cons, List.append_assoc]
    have hoff : P.length + 3 + (rowCore r).length = (P ++ rowString r).length := by
      rw [List.length_append, rowString_length]
      omega
    rw [hoff, ih (P ++ rowString r) tail (fun r' hr' => hsafe r' (List.Mem.tail _ hr')) hC3]
    rfl

theorem entries_c1 {f : Str} (hf : ∀ c ∈ f, isNameChar c = true)
    (rs : List RowData) (hsafe : ∀ r ∈ rs, RowSafe r ∧ r.family = f) :
    entriesToRemove f (xmlHeader ++ (rowsBlob rs ++ "</typemap>".data)) = rs.map rowCore := by
  rw [entriesToRemove, scanAll]
  have hlen : rs.length + 2 ≤ (xmlHeader ++ (rowsBlob rs ++ "</typemap>".data)).length + 1 := by
    have h3 := blob_len_ge rs
    simp only [List.length_append, List.length_cons, List.length_nil]
    have h32 : (xmlHeader).length = 32 := rfl
    omega
  rw [scanAllAux_c1 hf rs _ hlen hsafe]
  rw [show (32 : Nat) = (xmlHeader).length from rfl]
  exact entriesAux rs xmlHeader ("</typemap>".data) (fun r hr => (hsafe r hr).1) rfl

/-! ### The removal loop deletes exactly the row tags -/

theorem isPrefixAt_head_ne {n : Str} {a c : Char} (hh : n.head? = some a) (hne : a ≠ c)
    (t : Str) : isPrefixAt n (c :: t) = false := by
  cases n with
  | nil => simp at hh
  | cons b nt =>
    rw [List.head?_cons, Option.some_inj] at hh
    rw [isPrefixAt, show (b == c) = false from
      beq_eq_false_iff_ne.mpr (fun hbc => hne (hh ▸ hbc)), Bool.false_and]

theorem rowCore_head (r : RowData) : (rowCore r).head? = some '<' := rfl

theorem core_not_at_A (r : RowData) (S : Str) : ∀ i, i < 32 →
    isPrefixAt (rowCore r) ((xmlHeader ++ S).drop i) = false := by
  intro i hi
  interval_cases i <;> rfl

theorem core_not_at_res (r : RowData) : ∀ (j : Nat) (S : Str) (i : Nat), i < 3 * j →
    isPrefixAt (rowCore r) ((resBlob j ++ S).drop i) = false := by
  intro j
  induction j with
  | zero => intro S i hi; exact absurd hi (by omega)
  | succ k ih =>
    intro S i hi
    rcases i with _ | _ | _ | m
    · exact isPrefixAt_head_ne (rowCore_head r) (by decide) _
    · exact isPrefixAt_head_ne (rowCore_head r) (by decide) _
    · exact isPrefixAt_head_ne (rowCore_head r) (by decide) _
    · exact ih S m (by omega)

theorem resBlob_snoc : ∀ j : Nat, resBlob j ++ "  \n".data = resBlob (j + 1) := by
  intro j
  induction j with
  | zero => rfl
  | succ k ih =>
    rw [show resBlob (k + 1) = "  \n".data ++ resBlob k from rfl, List.append_assoc, ih]
    rfl

theorem resBlob_length : ∀ j : Nat, (resBlob j).length = 3 * j := by
  intro j
  induction j with
  | zero => rfl
  | succ k ih =>
    rw [show resBlob (k + 1) = "  \n".data ++ resBlob k from rfl, List.length_append, ih]
    have h3 : ("  \n".data).length = 3 := rfl
    omega

theorem core_prefix_fail (r : RowData) (j : Nat) (S : Str) : ∀ i, i < 32 + 3 * j + 2 →
    isPrefixAt (rowCore r) (((xmlHeader ++ (resBlob j ++ "  ".data)) ++ S).drop i) = false := by
  intro i hi
  have hassoc : (xmlHeader ++ (resBlob j ++ "  ".data)) ++ S =
      xmlHeader ++ (resBlob j ++ ("  ".data ++ S)) := by
    simp [List.append_assoc]
  rw [hassoc]
  by_cases h32 : i < 32
  · exact core_not_at_A r _ i h32
  · obtain ⟨m, rfl⟩ : ∃ m, i = 32 + m := ⟨i - 32, by omega⟩
    rw [show (32 : Nat) + m = (xmlHeader).length + m from rfl, drop_append_len]
    by_cases hm : m < 3 * j
    · exact core_not_at_res r j _ m hm
    · obtain ⟨p, rfl⟩ : ∃ p, m = 3 * j + p := ⟨m - 3 * j, by omega⟩
      rw [show (3 : Nat) * j + p = (resBlob j).length + p from by rw [resBlob_length],
        drop_append_len]
      have hp2 : p < 2 := by omega
      interval_cases p
      · exact isPrefixAt_head_ne (rowCore_head r) (by decide) _
      · exact isPrefixAt_head_ne (rowCore_head r) (by decide) _

theorem replaceFirst_core (r : RowData) (P z : Str)
    (hfail : ∀ i, i < P.length →
      isPrefixAt (rowCore r) ((P ++ (rowCore r ++ z)).drop i) = false) :
    replaceFirstStr (P ++ (rowCore r ++ z)) (rowCore r) [] = P ++ z := by
  have hne : rowCore r ≠ [] := by
    intro he
    have h10 := rowCore_length_ge r
    rw [he] at h10
    exact absurd h10 (by decide)
  have hidx : indexOfStr (rowCore r) (P ++ (rowCore r ++ z)) = some P.length := by
    rw [indexOfStr_shift P _ hfail, indexOfStr_self_append hne z]
    simp
  rw [replaceFirstStr, hidx]
  dsimp only
  rw [List.take_left' rfl, drop_append_len, List.drop_left' rfl]
  simp

theorem fold_remove : ∀ (rs : List RowData) (j : Nat) (tail : Str), (∀ r ∈ rs, RowSafe r) →
    (rs.map rowCore).foldl (fun c e => replaceFirstStr c e [])
      (xmlHeader ++ (resBlob j ++ (rowsBlob rs ++ tail))) =
    xmlHeader ++ (resBlob (j + rs.length) ++ tail) := by
  intro rs
  induction rs with
  | nil => intro j tail _; rfl
  | cons r rest ih =>
    intro j tail hsafe
    rw [List.map_cons, List.foldl_cons]
    have hinit : xmlHeader ++ (resBlob j ++ (rowsBlob (r :: rest) ++ tail)) =
        (xmlHeader ++ (resBlob j ++ "  ".data)) ++
          (rowCore r ++ ('\n' :: (rowsBlob rest ++ tail))) := by
      simp only [rowsBlob, List.map_cons, List.flatten_cons, rowString, List.append_assoc,
        List.cons_append, List.nil_append]
    have hPlen : (xmlHeader ++ (resBlob j ++ "  ".data)).length = 32 + 3 * j + 2 := by
      simp only [List.length_append, resBlob_length, List.length_cons, List.length_nil]
      have h32 : (xmlHeader).length = 32 := rfl
      omega
    rw [hinit, replaceFirst_core r _ _ (fun i hi =>
      core_prefix_fail r j _ i (by rw [hPlen] at hi; exact hi))]
    have hstep : (xmlHeader ++ (resBlob j ++ "  ".data)) ++ ('\n' :: (rowsBlob rest ++ tail)) =
        xmlHeader ++ (resBlob (j + 1) ++ (rowsBlob rest ++ tail)) := by
      rw [← resBlob_snoc]
      simp [List.append_assoc]
    rw [hstep, ih (j + 1) tail (fun r' h => hsafe r' (List.Mem.tail _ h))]
    rw [show j + 1 + rest.length = j + (rest.length + 1) from by omega]
    rfl

/-! ### The closing-tag position, trimming, and line splitting -/

theorem getLast_filter_range {p : Nat → Bool} {N i : Nat} (hiN : i ≤ N) (hp : p i = true)
    (hafter : ∀ j, i < j → j ≤ N → p j = false) :
    ((List.range (N + 1)).filter p).getLast? = some i := by
  have hsplit : N + 1 = (i + 1) + (N - i) := by omega
  rw [hsplit, List.range_add, List.filter_append]
  have h2 : ((List.range (N - i)).map ((i + 1) + ·)).filter p = [] := by
    rw [List.filter_eq_nil_iff]
    intro a ha
    simp only [List.mem_map, List.mem_range] at ha
    obtain ⟨k, hk, rfl⟩ := ha
    rw [hafter ((i + 1) + k) (by omega) (by omega)]
    exact Bool.false_ne_true
  rw [h2, List.append_nil, List.range_succ, List.filter_append,
    show List.filter p [i] = [i] from by rw [List.filter_cons, if_pos hp]; rfl]
  exact List.getLast?_concat _

theorem lastIndexOf_c1 (rs : List RowData) :
    lastIndexOfStr ("</typemap>".data) (xmlHeader ++ (rowsBlob rs ++ "</typemap>".data)) =
      some (32 + (rowsBlob rs).length) := by
  rw [lastIndexOfStr]
  have hC : (xmlHeader ++ (rowsBlob rs ++ "</typemap>".data)).length =
      42 + (rowsBlob rs).length := by
    simp only [List.length_append, List.length_cons, List.length_nil]
    have h32 : (xmlHeader).length = 32 := rfl
    omega
  rw [hC]
  refine getLast_filter_range (by omega) ?_ ?_
  · have hd : (xmlHeader ++ (rowsBlob rs ++ "</typemap>".data)).drop
        (32 + (rowsBlob rs).length) = "</typemap>".data := by
      rw [show xmlHeader ++ (rowsBlob rs ++ "</typemap>".data) =
        (xmlHeader ++ rowsBlob rs) ++ "</typemap>".data from (List.append_assoc _ _ _).symm]
      refine List.drop_left' ?_
      simp only [List.length_append]
      have h32 : (xmlHeader).length = 32 := rfl
      omega
    rw [hd]
    exact isPrefixAt_self_append ("</typemap>".data) []
  · intro j hj hjN
    refine isPrefixAt_false_of_short ?_
    rw [List.length_drop, hC]
    have h10 : ("</typemap>".data).length = 10 := rfl
    omega

theorem dropWhile_eq_self_of_head (p : Char → Bool) (l : Str)
    (h : ∀ c, l.head? = some c → p c = false) : l.dropWhile p = l := by
  cases l with
  | nil => rfl
  | cons a t => rw [List.dropWhile_cons, h a rfl]; simp

theorem jsTrim_eq_self {s : Str} {a b : Char} (ha : s.head? = some a) (hwa : isWs a = false)
    (hb : s.getLast? = some b) (hwb : isWs b = false) : jsTrim s = s := by
  rw [jsTrim]
  rw [dropWhile_eq_self_of_head isWs s fun c hc => by
    rw [ha, Option.some_inj] at hc; rw [← hc]; exact hwa]
  rw [dropWhile_eq_self_of_head isWs s.reverse fun c hc => by
    rw [List.head?_reverse, hb, Option.some_inj] at hc; rw [← hc]; exact hwb]
  exact List.reverse_reverse s

theorem endsWith_nl_nested (W V : Str) :
    jsEndsWith ("\n".data) (W ++ (V ++ "</typemap>".data)) = false := by
  rw [jsEndsWith, List.reverse_append, List.reverse_append]
  rfl

theorem blob_len_ge10 (rs : List RowData) (h : rs ≠ []) :
    3 * rs.length + 10 ≤ (rowsBlob rs).length := by
  cases rs with
  | nil => exact absurd rfl h
  | cons r rest =>
    have hb : rowsBlob (r :: rest) = rowString r ++ rowsBlob rest := by simp [rowsBlob]
    rw [hb, List.length_append, rowString_length]
    have h1 := rowCore_length_ge r
    have h2 := blob_len_ge rest
    simp only [List.length_cons]
    omega

theorem jsSplitChar_cons_ne {sep c : Char} (h : (c == sep) = false) (t : Str) :
    jsSplitChar sep (c :: t) =
      match jsSplitChar sep t with
      | [] => [[c]]
      | hd :: r => (c :: hd) :: r := by
  rw [jsSplitChar, if_neg (by rw [h]; exact Bool.false_ne_true)]

theorem splitNl_append_nl : ∀ (x : Str), '\n' ∉ x → ∀ y : Str,
    splitNl (x ++ '\n' :: y) = x :: splitNl y := by
  intro x
  induction x with
  | nil => intro _ y; rfl
  | cons c t ih =>
    intro hx y
    have hc : c ≠ '\n' := fun h => hx (h ▸ List.mem_cons_self c t)
    have ht : '\n' ∉ t := fun hm => hx (List.mem_cons_of_mem c hm)
    rw [List.cons_append, splitNl, jsSplitChar_cons_ne (beq_eq_false_iff_ne.mpr hc)]
    have hih : jsSplitChar '\n' (t ++ '\n' :: y) = t :: splitNl y := ih ht y
    rw [hih]
    rfl

theorem splitNl_no_nl : ∀ (x : Str), '\n' ∉ x → splitNl x = [x] := by
  intro x
  induction x with
  | nil => intro _; rfl
  | cons c t ih =>
    intro hx
    have hc : c ≠ '\n' := fun h => hx (h ▸ List.mem_cons_self c t)
    have ht : '\n' ∉ t := fun hm => hx (List.mem_cons_of_mem c hm)
    rw [splitNl, jsSplitChar_cons_ne (beq_eq_false_iff_ne.mpr hc)]
    have hih : jsSplitChar '\n' t = [t] := ih ht
    rw [hih]

theorem rowLine_no_nl {r : RowData} (h : RowSafe r) : '\n' ∉ "  ".data ++ rowCore r := by
  intro hm
  rcases List.mem_append.mp hm with h' | h'
  · exact (by decide : ∀ x ∈ "  ".data, x ≠ '\n') '\n' h' rfl
  · exact rowCore_no_nl h '\n' h' rfl

theorem splitNl_rowsBlob : ∀ rs : List RowData, (∀ r ∈ rs, RowSafe r) → ∀ z : Str,
    splitNl (rowsBlob rs ++ z) =
      (rs.map fun r => "  ".data ++ rowCore r) ++ splitNl z := by
  intro rs
  induction rs with
  | nil => intro _ z; rfl
  | cons r rest ih =>
    intro hsafe z
    have hsp : rowsBlob (r :: rest) ++ z =
        ("  ".data ++ rowCore r) ++ '\n' :: (rowsBlob rest ++ z) := by
      simp only [rowsBlob, List.map_cons, List.flatten_cons, rowString, List.append_assoc,
        List.cons_append, List.nil_append]
    rw [hsp, splitNl_append_nl _ (rowLine_no_nl (hsafe r (List.Mem.head rest))),
      ih (fun r' h => hsafe r' (List.Mem.tail _ h)) z]
    rfl

theorem splitNl_resBlob : ∀ (j : Nat) (z : Str),
    splitNl (resBlob j ++ z) = List.replicate j ("  ".data) ++ splitNl z := by
  intro j
  induction j with
  | zero => intro z; rfl
  | succ k ih =>
    intro z
    rw [show resBlob (k + 1) ++ z = "  ".data ++ '\n' :: (resBlob k ++ z) from rfl,
      splitNl_append_nl _ (by decide), ih]
    rfl

theorem filter_rowlines : ∀ rs : List RowData,
    (rs.map fun r => "  ".data ++ rowCore r).filter (jsStartsWith ("  <type ".data)) =
      rs.map fun r => "  ".data ++ rowCore r := by
  intro rs
  induction rs with
  | nil => rfl
  | cons r rest ih =>
    rw [List.map_cons, List.filter_cons, if_pos (show jsStartsWith ("  <type ".data)
      ("  ".data ++ rowCore r) = true from rfl), ih]

theorem filter_resLines : ∀ j : Nat,
    (List.replicate j ("  ".data)).filter (jsStartsWith ("  <type ".data)) = [] := by
  intro j
  induction j with
  | zero => rfl
  | succ k ih =>
    rw [List.replicate_succ, List.filter_cons,
      if_neg (show ¬(jsStartsWith ("  <type ".data) ("  ".data) = true) from by decide), ih]

theorem rows_c1 (rs : List RowData) (hsafe : ∀ r ∈ rs, RowSafe r) :
    rowsOfContent (xmlHeader ++ (rowsBlob rs ++ "</typemap>".data)) =
      rs.map fun r => "  ".data ++ rowCore r := by
  rw [rowsOfContent]
  have hsp : xmlHeader ++ (rowsBlob rs ++ "</typemap>".data) =
      "<?xml version=\"1.0\"?>".data ++ '\n' ::
        ("<typemap>".data ++ '\n' :: (rowsBlob rs ++ "</typemap>".data)) := rfl
  rw [hsp, splitNl_append_nl _ (by decide), splitNl_append_nl _ (by decide),
    splitNl_rowsBlob rs hsafe, splitNl_no_nl _ (by decide)]
  rw [List.filter_cons,
    if_neg (show ¬(jsStartsWith ("  <type ".data) ("<?xml version=\"1.0\"?>".data) = true)
      from by decide),
    List.filter_cons,
    if_neg (show ¬(jsStartsWith ("  <type ".data) ("<typemap>".data) = true) from by decide),
    List.filter_append, filter_rowlines,
    show (["</typemap>".data] : List Str).filter (jsStartsWith ("  <type ".data)) = []
      from rfl,
    List.append_nil]

theorem rows_c2 (rs : List RowData) (hsafe : ∀ r ∈ rs, RowSafe r) :
    rowsOfContent ((xmlHeader ++ (resBlob rs.length ++ "</typemap>".data)) ++
        ("\n".data ++ rowsBlob rs)) =
      rs.map fun r => "  ".data ++ rowCore r := by
  rw [rowsOfContent]
  have hsp : (xmlHeader ++ (resBlob rs.length ++ "</typemap>".data)) ++
        ("\n".data ++ rowsBlob rs) =
      "<?xml version=\"1.0\"?>".data ++ '\n' :: ("<typemap>".data ++ '\n' ::
        (resBlob rs.length ++ ("</typemap>".data ++ '\n' :: rowsBlob rs))) := by
    simp only [List.append_assoc, List.cons_append, List.nil_append]
    rfl
  rw [hsp, splitNl_append_nl _ (by decide), splitNl_append_nl _ (by decide),
    splitNl_resBlob, splitNl_append_nl _ (by decide),
    show rowsBlob rs = rowsBlob rs ++ [] from (List.append_nil _).symm,
    splitNl_rowsBlob rs hsafe []]
  rw [List.filter_cons,
    if_neg (show ¬(jsStartsWith ("  <type ".data) ("<?xml version=\"1.0\"?>".data) = true)
      from by decide),
    List.filter_cons,
    if_neg (show ¬(jsStartsWith ("  <type ".data) ("<typemap>".data) = true) from by decide),
    List.filter_append, filter_resLines,
    List.filter_cons,
    if_neg (show ¬(jsStartsWith ("  <type ".data) ("</typemap>".data) = true) from by decide),
    List.filter_append, filter_rowlines,
    show (splitNl ([] : Str)).filter (jsStartsWith ("  <type ".data)) = [] from rfl]
  rw [List.nil_append, List.append_nil]

/-! ### The generated rows carry safe attribute values -/

theorem safeVal_ite {c : Prop} [Decidable c] {a b : Str} (ha : SafeVal a) (hb : SafeVal b) :
    SafeVal (if c then a else b) := by
  split
  · exact ha
  · exact hb

theorem safeVal_of_name {fontName : Str} (hf : ∀ c ∈ fontName, isNameChar c = true) :
    SafeVal fontName := fun c hc =>
  ⟨(isNameChar_ne (hf c hc)).1, (isNameChar_ne (hf c hc)).2.1, (isNameChar_ne (hf c hc)).2.2.1⟩

theorem safeVal_glyphs {fontsDir file : Str} (hd : ∀ c ∈ fontsDir, isDirChar c = true)
    (hfile : ∀ c ∈ file, isFileChar c = true) : SafeVal (resolvePath fontsDir file) := by
  intro c hc
  rw [resolvePath] at hc
  rcases List.mem_append.mp hc with h | h
  · have h4 := isDirChar_ne (hd c h)
    exact ⟨h4.1, h4.2.1, h4.2.2.1⟩
  · rcases List.mem_cons.mp h with rfl | h'
    · exact ⟨by decide, by decide, by decide⟩
    · have h4 := isFileChar_ne (hfile c h')
      exact ⟨h4.1, h4.2.1, h4.2.2.1⟩

theorem mkRowData_safe {fontName fontsDir file : Str}
    (hf : ∀ c ∈ fontName, isNameChar c = true) (hd : ∀ c ∈ fontsDir, isDirChar c = true)
    (hfile : ∀ c ∈ file, isFileChar c = true) :
    RowSafe (mkRowData fontName fontsDir file) ∧
      (mkRowData fontName fontsDir file).family = fontName := by
  have hsf := safeVal_of_name hf
  refine ⟨⟨?_, ?_, ?_, ?_, ?_, ?_, ?_⟩, rfl⟩
  · refine safeVal_append hsf ?_
    repeat' refine safeVal_ite ?_ ?_
    all_goals decide
  · refine safeVal_append hsf ?_
    repeat' refine safeVal_ite ?_ ?_
    all_goals decide
  · exact hsf
  · refine safeVal_ite ?_ ?_ <;> decide
  · exact (by decide : SafeVal ("Normal".data))
  · repeat' refine safeVal_ite ?_ ?_
    all_goals decide
  · exact safeVal_glyphs hd hfile

theorem headI_chars {fontFiles : List Str} (h : ∀ fl ∈ fontFiles, ∀ c ∈ fl, isFileChar c = true)
    (hne : fontFiles ≠ []) :
    ∀ c ∈ ((fontFiles.find? fun fl => includesStr ("-regular".data) (jsToLower fl)).getD
      fontFiles.headI), isFileChar c = true := by
  cases hfind : fontFiles.find? fun fl => includesStr ("-regular".data) (jsToLower fl) with
  | some a =>
    simp only [Option.getD_some]
    exact h a (List.mem_of_find?_eq_some hfind)
  | none =>
    cases fontFiles with
    | nil => exact absurd rfl hne
    | cons hd tl =>
      simp only [Option.getD_none]
      exact h hd (List.Mem.head tl)

theorem defaultRowData_safe {fontName fontsDir : Str} {fontFiles : List Str}
    (hf : ∀ c ∈ fontName, isNameChar c = true) (hd : ∀ c ∈ fontsDir, isDirChar c = true)
    (hfiles : ∀ fl ∈ fontFiles, ∀ c ∈ fl, isFileChar c = true) (hne : fontFiles ≠ []) :
    RowSafe (defaultRowData fontName fontsDir fontFiles) ∧
      (defaultRowData fontName fontsDir fontFiles).family = fontName := by
  have hsf := safeVal_of_name hf
  refine ⟨⟨?_, ?_, ?_, ?_, ?_, ?_, ?_⟩, rfl⟩
  · exact hsf
  · exact safeVal_append hsf (by decide)
  · exact hsf
  · exact (by decide : SafeVal ("Normal".data))
  · exact (by decide : SafeVal ("Normal".data))
  · exact (by decide : SafeVal ("400".data))
  · exact safeVal_glyphs hd (headI_chars hfiles hne)

theorem newEntries_safe {fontName fontsDir : Str} {fontFiles : List Str}
    (hf : ∀ c ∈ fontName, isNameChar c = true) (hd : ∀ c ∈ fontsDir, isDirChar c = true)
    (hfiles : ∀ fl ∈ fontFiles, ∀ c ∈ fl, isFileChar c = true) (hne : fontFiles ≠ []) :
    ∀ r ∈ newEntriesList fontName fontsDir fontFiles, RowSafe r ∧ r.family = fontName := by
  intro r hr
  rw [newEntriesList] at hr
  rcases List.mem_append.mp hr with h | h
  · obtain ⟨fl, hfl, rfl⟩ := List.mem_map.mp h
    exact mkRowData_safe hf hd (hfiles fl hfl)
  · rw [List.mem_singleton] at h
    subst h
    exact defaultRowData_safe hf hd hfiles hne

/-! ### The two consecutive update calls -/

theorem updateXml_first (fontName fontsDir : Str) (dirFiles : List Str)
    (hne : fontFilesOf fontName dirFiles ≠ []) :
    updateTypeXmlFile fontName fontsDir dirFiles none =
      some (xmlHeader ++ (rowsBlob (newEntriesList fontName fontsDir
        (fontFilesOf fontName dirFiles)) ++ "</typemap>".data)) := by
  simp only [updateTypeXmlFile]
  split
  · rename_i h
    exact absurd (List.isEmpty_iff.mp h) hne
  · rw [show lastIndexOfStr ("</typemap>".data) (Option.getD none emptyTypeXml) = some 32
      from rfl]
    dsimp only
    rw [show entriesToRemove fontName (Option.getD none emptyTypeXml) = ([] : List Str)
      from rfl]
    rw [List.foldl_nil]
    rw [show jsTrim (jsSubstring (Option.getD none emptyTypeXml) 0 32) =
      "<?xml version=\"1.0\"?>\n<typemap>".data from rfl]
    rw [if_pos (show (!jsEndsWith ("\n".data) ("<?xml version=\"1.0\"?>\n<typemap>".data)) =
      true from rfl)]
    rw [show jsSubstringFrom (Option.getD none emptyTypeXml) 32 = "</typemap>".data from rfl]
    simp only [List.append_assoc]
    rfl

theorem updateXml_second (fontName fontsDir : Str) (dirFiles : List Str)
    (hf : ∀ c ∈ fontName, isNameChar c = true)
    (hne : fontFilesOf fontName dirFiles ≠ [])
    (rs : List RowData)
    (hrs : rs = newEntriesList fontName fontsDir (fontFilesOf fontName dirFiles))
    (hsafe : ∀ r ∈ rs, RowSafe r ∧ r.family = fontName) :
    updateTypeXmlFile fontName fontsDir dirFiles
        (some (xmlHeader ++ (rowsBlob rs ++ "</typemap>".data))) =
      some ((xmlHeader ++ (resBlob rs.length ++ "</typemap>".data)) ++
        ("\n".data ++ rowsBlob rs)) := by
  have hrsne : rs ≠ [] := by
    rw [hrs, newEntriesList]
    exact List.append_ne_nil_of_right_ne_nil _ (by simp)
  have hlen10 := blob_len_ge10 rs hrsne
  simp only [updateTypeXmlFile]
  split
  · rename_i h
    exact absurd (List.isEmpty_iff.mp h) hne
  · rw [show Option.getD (some (xmlHeader ++ (rowsBlob rs ++ "</typemap>".data))) emptyTypeXml
      = xmlHeader ++ (rowsBlob rs ++ "</typemap>".data) from rfl]
    rw [lastIndexOf_c1 rs]
    dsimp only
    rw [entries_c1 hf rs hsafe]
    rw [show xmlHeader ++ (rowsBlob rs ++ "</typemap>".data) =
      xmlHeader ++ (resBlob 0 ++ (rowsBlob rs ++ "</typemap>".data)) from rfl]
    rw [fold_remove rs 0 ("</typemap>".data) (fun r h => (hsafe r h).1)]
    rw [Nat.zero_add]
    have hclen : (xmlHeader ++ (resBlob rs.length ++ "</typemap>".data)).length ≤
        32 + (rowsBlob rs).length := by
      simp only [List.length_append, resBlob_length, List.length_cons, List.length_nil]
      have h32 : (xmlHeader).length = 32 := rfl
      omega
    rw [show jsSubstring (xmlHeader ++ (resBlob rs.length ++ "</typemap>".data)) 0
        (32 + (rowsBlob rs).length) =
        xmlHeader ++ (resBlob rs.length ++ "</typemap>".data) from by
      rw [jsSubstring, List.take_of_length_le hclen, List.drop_zero]]
    have hlast : (xmlHeader ++ (resBlob rs.length ++ "</typemap>".data)).getLast? =
        some '>' := by
      rw [List.getLast?_append, List.getLast?_append]
      rfl
    rw [jsTrim_eq_self (show (xmlHeader ++ (resBlob rs.length ++
      "</typemap>".data)).head? = some '<' from rfl) rfl hlast rfl]
    rw [if_pos (show (!jsEndsWith ("\n".data)
        (xmlHeader ++ (resBlob rs.length ++ "</typemap>".data))) = true from by
      rw [endsWith_nl_nested]; rfl)]
    rw [show jsSubstringFrom (xmlHeader ++ (resBlob rs.length ++ "</typemap>".data))
        (32 + (rowsBlob rs).length) = ([] : Str) from by
      rw [jsSubstringFrom]
      refine List.drop_eq_nil_of_le ?_
      simp only [List.length_append, resBlob_length, List.length_cons, List.length_nil]
      have h32 : (xmlHeader).length = 32 := rfl
      omega]
    rw [hrs]
    simp only [List.append_assoc, List.append_nil]
    rfl

/-! ## The claims -/

theorem dropWhile_head?_false (p : Char → Bool) (l : Str) :
    ∀ c, (l.dropWhile p).head? = some c → p c = false := by
  induction l with
  | nil => intro c h; simp at h
  | cons a t ih =>
    intro c h
    rw [List.dropWhile_cons] at h
    by_cases hp : p a = true
    · rw [if_pos hp] at h; exact ih c h
    · rw [if_neg hp] at h
      simp only [List.head?_cons, Option.some.injEq] at h
      subst h
      simpa using hp

theorem jsTrim_head?_false (s : Str) :
    ∀ c, (jsTrim s).head? = some c → isWs c = false := by
  intro c h
  unfold jsTrim at h
  rw [List.head?_reverse] at h
  set a := s.dropWhile isWs with ha
  set b := a.reverse.dropWhile isWs with hb
  obtain ⟨t, ht⟩ := List.dropWhile_suffix (l := a.reverse) (p := isWs)
  have hbne : b ≠ [] := fun hnil => by rw [hnil] at h; simp at h
  have h2 : a.head? = some c := by
    rw [← List.getLast?_reverse, ← ht, List.getLast?_append_of_ne_nil t hbne]
    exact h
  exact dropWhile_head?_false isWs s c h2

theorem jsTrim_idem (s : Str) : jsTrim (jsTrim s) = jsTrim s := by
  have h1 : (jsTrim s).dropWhile isWs = jsTrim s :=
    dropWhile_eq_self_of_head _ _ (jsTrim_head?_false s)
  show (((jsTrim s).dropWhile isWs).reverse.dropWhile isWs).reverse = jsTrim s
  rw [h1]
  have h2 : (jsTrim s).reverse.dropWhile isWs = (jsTrim s).reverse := by
    rw [show (jsTrim s).reverse = (s.dropWhile isWs).reverse.dropWhile isWs from by
      unfold jsTrim; rw [List.reverse_reverse]]
    exact dropWhile_eq_self_of_head _ _ (dropWhile_head?_false isWs _)
  rw [h2, List.reverse_reverse]

theorem jsSplitChar_eq_single {sep : Char} {l : Str} (h : sep ∉ l) :
    jsSplitChar sep l = [l] := by
  induction l with
  | nil => rfl
  | cons c t ih =>
    have hcs : c ≠ sep := fun hh => h (hh ▸ List.Mem.head t)
    have ht : sep ∉ t := fun hh => h (List.Mem.tail c hh)
    simp only [jsSplitChar, if_neg (show ¬((c == sep) = true) by simpa using hcs), ih ht]

theorem dedup_go_mem (l : List Str) : ∀ (seen : List Str) (x : Str),
    x ∈ dedupKeepFirst.go seen l → x ∈ l ∧ x ∉ seen := by
  induction l with
  | nil => intro seen x hx; simp [dedupKeepFirst.go] at hx
  | cons a t ih =>
    intro seen x hx
    rw [dedupKeepFirst.go] at hx
    by_cases h : seen.contains a = true
    · rw [if_pos h] at hx
      obtain ⟨h1, h2⟩ := ih seen x hx
      exact ⟨List.Mem.tail a h1, h2⟩
    · rw [if_neg h] at hx
      cases hx with
      | head => exact ⟨List.Mem.head t, fun hs => h (List.elem_iff.2 hs)⟩
      | tail _ hx' =>
        obtain ⟨h1, h2⟩ := ih (a :: seen) x hx'
        exact ⟨List.Mem.tail a h1, fun hs => h2 (List.Mem.tail a hs)⟩

theorem dedup_go_nodup (l : List Str) : ∀ seen, (dedupKeepFirst.go seen l).Nodup := by
  induction l with
  | nil => intro seen; simp [dedupKeepFirst.go]
  | cons a t ih =>
    intro seen
    rw [dedupKeepFirst.go]
    by_cases h : seen.contains a = true
    · rw [if_pos h]; exact ih seen
    · rw [if_neg h]
      refine List.Nodup.cons ?_ (ih (a :: seen))
      intro hmem
      exact (dedup_go_mem t (a :: seen) a hmem).2 (List.Mem.head seen)

theorem extractRaw_trimmed (s : Str) : ∀ r ∈ extractRaw s, jsTrim r = r := by
  intro r hr
  simp only [extractRaw, List.mem_append, List.mem_map, List.mem_flatMap] at hr
  rcases hr with ((((hr | hr) | hr) | hr) | hr) | hr
  · obtain ⟨c, _, rfl⟩ := hr; exact jsTrim_idem c
  · obtain ⟨c, _, rfl⟩ := hr; exact jsTrim_idem c
  · obtain ⟨css, _, c, _, rfl⟩ := hr; exact jsTrim_idem c
  · obtain ⟨c, _, rfl⟩ := hr; exact jsTrim_idem c
  · obtain ⟨c, _, rfl⟩ := hr; exact jsTrim_idem c
  · obtain ⟨c, _, rfl⟩ := hr; exact jsTrim_idem c

/-- C1 counterexample: a document referencing `Roboto` once through an inline
    style and once through an attribute carrying a fallback chain makes the
    extractor return the primary name `Roboto` twice — de-duplication happens
    on the raw captured strings *before* fallback-chain stripping. -/
theorem extract_duplicate_primary :
    extractFontsFromSVG dupFontsDoc = ["Roboto".data, "Roboto".data] ∧
    ¬ (extractFontsFromSVG dupFontsDoc).Nodup := by decide

/-- C1 (amended): the extractor returns the primary names of the
    de-duplicated raw captures in insertion order; each primary name appears
    exactly once provided no raw capture carries a fallback chain (no comma),
    since only then does stripping coincide with the de-duplicated keys. -/
theorem extract_nodup_of_commaFree (s : Str)
    (h : ∀ r ∈ extractRaw s, ',' ∉ r) :
    (extractFontsFromSVG s).Nodup := by
  have hmap : ∀ x ∈ dedupKeepFirst (extractRaw s), primaryName x = x := by
    intro x hx
    have hx' : x ∈ extractRaw s := (dedup_go_mem (extractRaw s) [] x hx).1
    unfold primaryName
    rw [jsSplitChar_eq_single (h x hx')]
    simpa using extractRaw_trimmed s x hx'
  unfold extractFontsFromSVG
  rw [List.map_congr_left hmap, List.map_id']
  exact dedup_go_nodup (extractRaw s) []

/-- Witness for C1 (amended) on a document with a single plain reference. -/
theorem extract_nodup_of_commaFree_witness :
    (∀ r ∈ extractRaw ("<text font-family=\"Open Sans\">x</text>".data), ',' ∉ r) ∧
    (extractFontsFromSVG ("<text font-family=\"Open Sans\">x</text>".data)).Nodup :=
  ⟨by decide, extract_nodup_of_commaFree _ (by decide)⟩

/-- C2: for every target size `T` and dimensions `W, H > 0`, canvas
    normalization computes `scaleFactor = T / max(W, H)` and centre offsets
    `(T − W·scale)/2`, `(T − H·scale)/2`, which satisfy the exact centring
    identities `2·centerX + W·scale = T` and `2·centerY + H·scale = T` and
    preserve the aspect ratio; on a document whose declared dimensions parse
    to `W` and `H`, `scaleFactorOf` computes exactly this scale factor. -/
theorem scale_center_exact (t w h : ℚ) (hw : 0 < w) (_hh : 0 < h) :
    jsDiv (some t) (jsMax (some w) (some h)) = some (scaleFactorQ t w h) ∧
    scaleFactorQ t w h = t / max w h ∧
    2 * centerXQ t w h + w * scaleFactorQ t w h = t ∧
    2 * centerYQ t w h + h * scaleFactorQ t w h = t ∧
    w * scaleFactorQ t w h * h = h * scaleFactorQ t w h * w ∧
    ∀ content, svgDims content = (some w, some h) →
      scaleFactorOf content t = some (scaleFactorQ t w h) := by
  have hmax : max w h ≠ 0 := ne_of_gt (lt_max_of_lt_left hw)
  refine ⟨?_, rfl, ?_, ?_, by ring, ?_⟩
  · simp [jsDiv, jsMax, hmax, scaleFactorQ]
  · unfold centerXQ; ring
  · unfold centerYQ; ring
  · intro content hc
    unfold scaleFactorOf
    rw [hc]
    simp [jsMax, jsDiv, hmax, scaleFactorQ]

/-- Witness for C2 at `T = 102`, `W = 200`, `H = 100`. -/
theorem scale_center_exact_witness :
    (0 : ℚ) < 200 ∧ (0 : ℚ) < 100 ∧
    (jsDiv (some 102) (jsMax (some (200 : ℚ)) (some (100 : ℚ))) =
        some (scaleFactorQ 102 200 100) ∧
      2 * centerXQ 102 200 100 + 200 * scaleFactorQ 102 200 100 = 102) :=
  ⟨by norm_num, by norm_num,
   (scale_center_exact 102 200 100 (by norm_num) (by norm_num)).1,
   (scale_center_exact 102 200 100 (by norm_num) (by norm_num)).2.2.1⟩

/-- C3: for every family name (letters, digits and spaces), fonts directory
    and fixed directory listing, two consecutive `updateTypeXmlFile` calls for
    that family — the first creating the mapping file from the fresh template,
    the second running on the first call's output — leave the mapping file
    with exactly the same rows after the second call as after the first: the
    stale rows for the family are all removed before the new ones are
    appended, so the repeated run does not accumulate duplicate rows. -/
theorem typemap_rows_idempotent (fontName fontsDir : Str) (dirFiles : List Str)
    (hf : ∀ c ∈ fontName, isNameChar c = true)
    (hd : ∀ c ∈ fontsDir, isDirChar c = true)
    (hfiles : ∀ file ∈ dirFiles, ∀ c ∈ file, isFileChar c = true) :
    rowsOfFile (updateTypeXmlFile fontName fontsDir dirFiles
      (updateTypeXmlFile fontName fontsDir dirFiles none)) =
    rowsOfFile (updateTypeXmlFile fontName fontsDir dirFiles none) := by
  by_cases hne : fontFilesOf fontName dirFiles = []
  · have h1 : updateTypeXmlFile fontName fontsDir dirFiles none = none := by
      simp only [updateTypeXmlFile]
      split
      · rfl
      · rename_i h
        exact absurd hne (List.isEmpty_eq_false.mp (Bool.eq_false_iff.mpr h))
    rw [h1, h1]
  · have hffchars : ∀ fl ∈ fontFilesOf fontName dirFiles, ∀ c ∈ fl, isFileChar c = true := by
      intro fl hfl
      exact hfiles fl (List.mem_filter.mp hfl).1
    have hsafe := newEntries_safe hf hd hffchars hne
    rw [updateXml_first fontName fontsDir dirFiles hne]
    rw [updateXml_second fontName fontsDir dirFiles hf hne
      (newEntriesList fontName fontsDir (fontFilesOf fontName dirFiles)) rfl hsafe]
    simp only [rowsOfFile]
    rw [rows_c1 _ (fun r h => (hsafe r h).1), rows_c2 _ (fun r h => (hsafe r h).1)]

/-- Witness for C3: two consecutive registration runs for `Roboto` over a
    directory holding `Roboto-Regular.ttf`. -/
theorem typemap_rows_idempotent_witness :
    (∀ c ∈ ("Roboto".data : Str), isNameChar c = true) ∧
    (∀ c ∈ ("/f".data : Str), isDirChar c = true) ∧
    (∀ file ∈ (["Roboto-Regular.ttf".data] : List Str), ∀ c ∈ file, isFileChar c = true) ∧
    rowsOfFile (updateTypeXmlFile ("Roboto".data) ("/f".data) ["Roboto-Regular.ttf".data]
      (updateTypeXmlFile ("Roboto".data) ("/f".data) ["Roboto-Regular.ttf".data] none)) =
    rowsOfFile (updateTypeXmlFile ("Roboto".data) ("/f".data)
      ["Roboto-Regular.ttf".data] none) :=
  ⟨by decide, by decide, by decide,
    typemap_rows_idempotent ("Roboto".data) ("/f".data) ["Roboto-Regular.ttf".data]
      (by decide) (by decide) (by decide)⟩

/-- C10: the local index's exists check returns true iff some file's base
    name, lower-cased and stripped of non-alphanumerics, contains the
    identically normalized query as a substring; `"Open Sans"` matches
    `OpenSans-Bold.ttf`, an empty directory gives false, and a failed
    directory read gives false. -/
theorem fontExistsLocally_spec :
    (∀ name, fontExistsLocally name none = false) ∧
    (∀ name files,
      fontExistsLocally name (some files) = true ↔
        ∃ f ∈ files, ∃ u v,
          normalizeFontKey (basenameExt f (extnameOf f)) =
            u ++ normalizeFontKey name ++ v) ∧
    fontExistsLocally ("Open Sans".data) (some ["OpenSans-Bold.ttf".data]) = true ∧
    (∀ name, fontExistsLocally name (some []) = false) := by
  refine ⟨fun _ => rfl, ?_, by decide, fun _ => rfl⟩
  intro name files
  unfold fontExistsLocally
  rw [List.any_eq_true]
  constructor
  · rintro ⟨f, hf, hinc⟩
    exact ⟨f, hf, (includesStr_iff _ _).1 hinc⟩
  · rintro ⟨f, hf, hdecomp⟩
    exact ⟨f, hf, (includesStr_iff _ _).2 hdecomp⟩

/-- C5 counterexample: registering `Roboto` with the single file
    `Roboto-Regular.ttf` appends a per-file row and a default row with the
    identical `(name, family, style, weight)` tuple (indeed the identical
    row), so the at-most-one-entry-per-tuple invariant fails. -/
theorem mapping_tuple_duplicate :
    ¬ ((newEntriesList ("Roboto".data) ("/fonts".data)
          ["Roboto-Regular.ttf".data]).map RowData.tuple).Nodup ∧
    countOccurStr
      (rowString (mkRowData ("Roboto".data) ("/fonts".data) ("Roboto-Regular.ttf".data)))
      ((updateTypeXmlFile ("Roboto".data) ("/fonts".data) ["Roboto-Regular.ttf".data]
          none).getD []) = 2 := by decide

/-- C5 (amended): a write cycle appends one row per matched file plus one
    default row; rows for distinct files always have distinct `glyphs` paths,
    but the default row can coincide with the per-file row of a `-regular`
    file, so `(name, family, style, weight)` tuples are not unique. -/
theorem perFileRows_glyphs_nodup (fontName fontsDir : Str) (files : List Str)
    (hnd : files.Nodup) :
    ((files.map (mkRowData fontName fontsDir)).map RowData.glyphs).Nodup := by
  have hg : ∀ f, (mkRowData fontName fontsDir f).glyphs = fontsDir ++ '/' :: f :=
    fun _ => rfl
  rw [List.map_map]
  have : (RowData.glyphs ∘ mkRowData fontName fontsDir) =
      fun f => fontsDir ++ '/' :: f := funext fun f => hg f
  rw [this]
  refine hnd.map ?_
  intro a b hab
  have := List.append_cancel_left hab
  injection this

/-- Witness for C5 (amended) with two distinct files. -/
theorem perFileRows_glyphs_nodup_witness :
    (["A-Bold.ttf".data, "A-Italic.ttf".data] : List Str).Nodup ∧
    (((["A-Bold.ttf".data, "A-Italic.ttf".data] : List Str).map
        (mkRowData ("A".data) ("/f".data))).map RowData.glyphs).Nodup :=
  ⟨by decide, perFileRows_glyphs_nodup ("A".data) ("/f".data) _ (by decide)⟩

/-- C4 counterexample: a system font ("Arial") that is not present locally is
    pushed onto `fontsFailed` — the code returns the same boolean `false` for
    the skip case as for a failure, so no `Skipped` outcome distinct from
    `Failed` exists in the aggregate. -/
theorem systemFont_counted_failed :
    (ensureFontsAvailable envNoNet docArial ("/f".data) fsEmpty).results.fontsFailed =
      ["Arial".data] ∧
    (ensureFontsAvailable envNoNet docArial ("/f".data) fsEmpty).results.fontsDownloaded =
      [] ∧
    (ensureFontsAvailable envNoNet docArial ("/f".data) fsEmpty).networkCalls = 0 ∧
    (ensureFontsAvailable envNoNet docArial ("/f".data) fsEmpty).fs.typeXml = none := by
  decide

/-- C4 (amended): for a name on the fixed system-font list the resolver
    returns without any network request, writes no file and leaves the
    mapping untouched, but its outcome is the plain boolean `false`, which
    the aggregate counts under `fontsFailed`. -/
theorem systemFont_skip_no_network :
    (∀ env fontName fontsDir fs, fontName ∈ systemFonts →
      downloadGoogleFont env fontName fontsDir fs =
        ({ result := false, networkCalls := 0, fileWritten := none,
           mappingTouched := false, logs := [] }, fs)) ∧
    (∀ env fontsDir st fontName, fontName ∈ systemFonts →
      fontExistsLocally fontName (some st.fs.dirFiles) = false →
      (ensureStep env fontsDir st fontName).results.fontsFailed =
        st.results.fontsFailed ++ [fontName] ∧
      (ensureStep env fontsDir st fontName).fs = st.fs ∧
      (ensureStep env fontsDir st fontName).networkCalls = st.networkCalls) := by
  have hdl : ∀ (env : NetEnv) fontName fontsDir fs, fontName ∈ systemFonts →
      downloadGoogleFont env fontName fontsDir fs =
        ({ result := false, networkCalls := 0, fileWritten := none,
           mappingTouched := false, logs := [] }, fs) := by
    intro env fontName fontsDir fs hmem
    unfold downloadGoogleFont
    rw [if_pos (show systemFonts.contains fontName = true from List.elem_iff.2 hmem)]
  refine ⟨hdl, ?_⟩
  intro env fontsDir st fontName hmem hloc
  unfold ensureStep
  rw [hloc, hdl env fontName fontsDir st.fs hmem]
  simp

/-- Witness for C4 (amended) at `"Arial"`. -/
theorem systemFont_skip_no_network_witness :
    ("Arial".data ∈ systemFonts) ∧
    downloadGoogleFont envNoNet ("Arial".data) ("/f".data) fsEmpty =
      ({ result := false, networkCalls := 0, fileWritten := none,
         mappingTouched := false, logs := [] }, fsEmpty) :=
  ⟨by decide, systemFont_skip_no_network.1 envNoNet ("Arial".data) ("/f".data) fsEmpty
    (by decide)⟩

/-- C9 counterexample: with no API key configured, a non-system font ends up
    in `fontsFailed` but the aggregate's `errors` stays empty — the
    descriptive reason is only printed to the console (the download routine
    catches its own error and resolves `false`, so the caller's `catch` that
    would fill `errors` never runs). -/
theorem missing_key_reason_not_in_errors :
    (ensureFontsAvailable envNoKey docRoboto ("/f".data) fsEmpty).results.fontsFailed =
      ["Roboto".data] ∧
    (ensureFontsAvailable envNoKey docRoboto ("/f".data) fsEmpty).results.errors = [] ∧
    (downloadGoogleFont envNoKey ("Roboto".data) ("/f".data) fsEmpty).1.logs =
      [outerErrLog ("Roboto".data) apiKeyErrMsg] := by
  decide

/-- C9 (amended): with no API key, resolution of a non-system font fails
    terminally with no network call, the descriptive reason appearing only in
    the console log; the overall run continues — every detected font is
    placed in exactly one of the three outcome buckets. -/
theorem missing_key_fails_run_continues :
    (∀ env fontName fontsDir fs, env.apiKey = none → fontName ∉ systemFonts →
      downloadGoogleFont env fontName fontsDir fs =
        ({ result := false, networkCalls := 0, fileWritten := none,
           mappingTouched := false,
           logs := [outerErrLog fontName apiKeyErrMsg] }, fs)) ∧
    (∀ env svgContent fontsDir fs0,
      (ensureFontsAvailable env svgContent fontsDir fs0).results.fontsDetected.length =
        (ensureFontsAvailable env svgContent fontsDir fs0).results.fontsFoundLocally.length +
        (ensureFontsAvailable env svgContent fontsDir fs0).results.fontsDownloaded.length +
        (ensureFontsAvailable env svgContent fontsDir fs0).results.fontsFailed.length) := by
  constructor
  · intro env fontName fontsDir fs hkey hmem
    unfold downloadGoogleFont
    rw [if_neg (fun hc => hmem (List.elem_iff.1 hc)), hkey]
  · intro env svgContent fontsDir fs0
    have step : ∀ (l : List Str) (st : EnsureState),
        (l.foldl (ensureStep env fontsDir) st).results.fontsDetected =
          st.results.fontsDetected ∧
        (l.foldl (ensureStep env fontsDir) st).results.fontsFoundLocally.length +
          (l.foldl (ensureStep env fontsDir) st).results.fontsDownloaded.length +
          (l.foldl (ensureStep env fontsDir) st).results.fontsFailed.length =
        st.results.fontsFoundLocally.length + st.results.fontsDownloaded.length +
          st.results.fontsFailed.length + l.length := by
      intro l
      induction l with
      | nil => intro st; exact ⟨rfl, by simp⟩
      | cons a t ih =>
        intro st
        rw [List.foldl_cons]
        have hstep : (ensureStep env fontsDir st a).results.fontsDetected =
            st.results.fontsDetected ∧
            (ensureStep env fontsDir st a).results.fontsFoundLocally.length +
              (ensureStep env fontsDir st a).results.fontsDownloaded.length +
              (ensureStep env fontsDir st a).results.fontsFailed.length =
            st.results.fontsFoundLocally.length + st.results.fontsDownloaded.length +
              st.results.fontsFailed.length + 1 := by
          unfold ensureStep
          by_cases hloc : fontExistsLocally a (some st.fs.dirFiles) = true
          · rw [if_pos hloc]; exact ⟨rfl, by simp +arith⟩
          · rw [if_neg hloc]
            by_cases hres : (downloadGoogleFont env a fontsDir st.fs).1.result = true
            · rw [if_pos hres]; exact ⟨rfl, by simp +arith⟩
            · rw [if_neg hres]; exact ⟨rfl, by simp +arith⟩
        obtain ⟨ihd, ihc⟩ := ih (ensureStep env fontsDir st a)
        exact ⟨by rw [ihd, hstep.1], by rw [ihc, hstep.2]; simp +arith⟩
    simp only [ensureFontsAvailable]
    by_cases hemp : (extractFontsFromSVG svgContent).isEmpty = true
    · rw [if_pos hemp]
      have : extractFontsFromSVG svgContent = [] := List.isEmpty_iff.1 hemp
      simp [this]
    · rw [if_neg hemp]
      obtain ⟨hdet, hcnt⟩ := step (extractFontsFromSVG svgContent)
        { results := { fontsDetected := extractFontsFromSVG svgContent,
                       fontsFoundLocally := [], fontsDownloaded := [],
                       fontsFailed := [], errors := [] },
          fs := fs0, networkCalls := 0 }
      rw [hdet, hcnt]
      simp

/-- Witness for C9 (amended) at `"Roboto"` with no key configured. -/
theorem missing_key_fails_run_continues_witness :
    envNoKey.apiKey = none ∧ ("Roboto".data ∉ systemFonts) ∧
    downloadGoogleFont envNoKey ("Roboto".data) ("/f".data) fsEmpty =
      ({ result := false, networkCalls := 0, fileWritten := none,
         mappingTouched := false,
         logs := [outerErrLog ("Roboto".data) apiKeyErrMsg] }, fsEmpty) :=
  ⟨rfl, by decide,
   missing_key_fails_run_continues.1 envNoKey ("Roboto".data) ("/f".data) fsEmpty rfl
     (by decide)⟩

/-- C7 counterexample: a document with no declared frame whose width and
    height are the plain numeric values `0` and `100` is left unchanged —
    the code additionally requires both parsed dimensions to be strictly
    positive before injecting a frame. -/
theorem frame_zero_dims_unchanged :
    preprocessSvgFrame frameZeroDoc = frameZeroDoc ∧
    testPat svgViewBoxPat frameZeroDoc = false ∧
    parseFloatQ ("0".data) = some 0 ∧ parseFloatQ ("100".data) = some 100 := by
  decide

/-- C7 (amended): when the root tag is found and no frame is declared, and
    both declared dimensions parse as numbers, the frame `0 0 w h` is
    injected into the root tag exactly when both numbers are strictly
    positive; when either dimension is missing or non-numeric (or the parse
    yields NaN) the document is unchanged by this pass. -/
theorem frame_inference_cases :
    (∀ content pos caps len wc hc w h,
      searchFrom svgTagPat content = some (pos, caps, len) →
      testPat svgViewBoxPat content = false →
      firstMatch svgWidthPat content = some wc →
      firstMatch svgHeightPat content = some hc →
      parseFloatQ (jsTrim wc.headI) = some w →
      parseFloatQ (jsTrim hc.headI) = some h →
      preprocessSvgFrame content =
        (if 0 < w ∧ 0 < h then
          replaceFirstStr content (jsSubstring content pos (pos + len))
            (injectViewBox (jsSubstring content pos (pos + len))
              ("0 0 ".data ++ qToStr w ++ " ".data ++ qToStr h))
        else content)) ∧
    (∀ content,
      (firstMatch svgWidthPat content = none ∨ firstMatch svgHeightPat content = none ∨
       (∃ wc, firstMatch svgWidthPat content = some wc ∧
          parseFloatQ (jsTrim wc.headI) = none) ∨
       (∃ hc, firstMatch svgHeightPat content = some hc ∧
          parseFloatQ (jsTrim hc.headI) = none)) →
      preprocessSvgFrame content = content) := by
  constructor
  · intro content pos caps len wc hc w h hsf hvb hwc hhc hw hh
    unfold preprocessSvgFrame
    rw [hsf, hvb, hwc, hhc]
    dsimp only
    rw [hw, hh]
    rfl
  · intro content hcases
    unfold preprocessSvgFrame
    cases hsf : searchFrom svgTagPat content with
    | none => rfl
    | some m =>
      obtain ⟨pos, caps, len⟩ := m
      by_cases hvb : testPat svgViewBoxPat content = true
      · rw [hvb]; rfl
      · rw [Bool.not_eq_true] at hvb
        rw [hvb]
        dsimp only
        rcases hcases with hwn | hhn | ⟨wc, hwc, hwnan⟩ | ⟨hc, hhc, hhnan⟩
        · rw [hwn]
          cases firstMatch svgHeightPat content <;> rfl
        · rw [hhn]
          cases firstMatch svgWidthPat content <;> rfl
        · rw [hwc]
          cases hhm : firstMatch svgHeightPat content with
          | none => rfl
          | some hcaps =>
            dsimp only
            rw [hwnan]
            rfl
        · rw [hhc]
          cases hwm : firstMatch svgWidthPat content with
          | none => rfl
          | some wcaps =>
            dsimp only
            rw [hhnan]
            cases parseFloatQ (jsTrim wcaps.headI) <;> rfl

/-- Witness for C7 (amended): `width="200" height="100"` with no declared
    frame receives the injected frame `0 0 200 100`. -/
theorem frame_inference_cases_witness :
    testPat svgViewBoxPat frameNumDoc = false ∧
    preprocessSvgFrame frameNumDoc =
      (if (0 : ℚ) < 200 ∧ (0 : ℚ) < 100 then
        replaceFirstStr frameNumDoc (jsSubstring frameNumDoc 0 (0 + 30))
          (injectViewBox (jsSubstring frameNumDoc 0 (0 + 30))
            ("0 0 ".data ++ qToStr 200 ++ " ".data ++ qToStr 100))
      else frameNumDoc) :=
  ⟨by decide,
   frame_inference_cases.1 frameNumDoc 0 [] 30 ["200".data] ["100".data] 200 100
     (by decide) (by decide) (by decide) (by decide) (by decide) (by decide)⟩

/-- C8 counterexample: with `width="abc" height="def"` both attributes are
    present but unparseable; the code does *not* fall back to the default
    dimension pair — the parsed values are NaN, the scale factor is not a
    finite number, and the rewritten document contains `NaN` in its
    transform. -/
theorem nan_dims_no_fallback :
    svgDims nanDimsDoc = (none, none) ∧
    svgDims nanDimsDoc ≠ (some defaultDim, some defaultDim) ∧
    scaleFactorOf nanDimsDoc 102 = none ∧
    includesStr ("NaN".data) (modifySvgDimensions nanDimsDoc 102) = true := by
  decide

/-- C8 (amended): the fixed default dimension pair is used only when the
    width or height attribute is *absent* (then the scale factor is a
    well-defined finite number); when both attributes are present the
    `parseFloat` results are used as-is, NaN included. -/
theorem dims_fallback_cases :
    (∀ content t,
      (firstMatch widthAttrPat content = none ∨
       firstMatch heightAttrPat content = none) →
      svgDims content = (some defaultDim, some defaultDim) ∧
      scaleFactorOf content t = some (t / defaultDim)) ∧
    (∀ content wc hc,
      firstMatch widthAttrPat content = some wc →
      firstMatch heightAttrPat content = some hc →
      svgDims content = (parseFloatQ wc.headI, parseFloatQ hc.headI)) := by
  have hdd : (defaultDim : ℚ) ≠ 0 := by decide
  constructor
  · intro content t hcases
    have hdims : svgDims content = (some defaultDim, some defaultDim) := by
      unfold svgDims
      rcases hcases with hwn | hhn
      · rw [hwn]
      · rw [hhn]; cases firstMatch widthAttrPat content <;> rfl
    refine ⟨hdims, ?_⟩
    unfold scaleFactorOf
    rw [hdims]
    simp [jsMax, jsDiv, hdd]
  · intro content wc hc hwc hhc
    unfold svgDims
    rw [hwc, hhc]

/-- Witness for C8 (amended): a document with no dimension attributes falls
    back to the default pair and gets a finite scale factor. -/
theorem dims_fallback_cases_witness :
    (firstMatch widthAttrPat ("<svg/>".data) = none ∨
     firstMatch heightAttrPat ("<svg/>".data) = none) ∧
    (svgDims ("<svg/>".data) = (some defaultDim, some defaultDim) ∧
     scaleFactorOf ("<svg/>".data) 102 = some (102 / defaultDim)) :=
  ⟨Or.inl (by decide), dims_fallback_cases.1 ("<svg/>".data) 102 (Or.inl (by decide))⟩

/-- C6 counterexample: the font-face injection pass is not idempotent — a
    second application over the already-processed document changes it again. -/
theorem betterFonts_not_idempotent : betterFonts2 ≠ betterFonts1 := by decide

/-- C6 (amended): the pre-existing font-face style block is removed and
    replaced wholesale (exactly one `@font-face` block after each run), but
    the pass is not idempotent: the second application appends the
    font-family/text-rendering component to the element's inline style a
    second time; the font-weight tagging does not accumulate. -/
theorem betterFonts_accumulates :
    countOccurStr (fontStyleStr ("Roboto".data)) betterFonts1 = 1 ∧
    countOccurStr (fontStyleStr ("Roboto".data)) betterFonts2 = 2 ∧
    countOccurStr ("@font-face".data) betterFonts1 = 1 ∧
    countOccurStr ("@font-face".data) betterFonts2 = 1 ∧
    countOccurStr ("font-weight=\"bold\"".data) betterFonts1 = 1 ∧
    countOccurStr ("font-weight=\"bold\"".data) betterFonts2 = 1 := by
  decide

end ChipLab
